import Mathlib

/-!
Verification of the chainvue-signer transaction codec and signing engine.

The development shallowly embeds the TypeScript source: `Buffer` values
become `List Nat` with every element intended below 256, fixed-width
little-endian reads/writes become explicit arithmetic, and fallible
operations (Node buffer reads that throw `RangeError`, writes that throw on
out-of-range values) become `Option`/`Except` results.  External library
primitives (noble BLAKE2b, secp256k1, bs58check) are parameters of the
embedded functions, since their code is not part of this repository.
-/

/-- Value of a little-endian byte list: byte 0 is least significant. -/
def leVal (l : List Nat) : Nat := l.foldr (fun b acc => b + 256 * acc) 0

/-- Little-endian encoding of `v` on `n` bytes (low `8*n` bits of `v`).
Mirrors Node's `writeUIntLE` family once the range check has passed. -/
def leBytes : Nat → Nat → List Nat
  | 0, _ => []
  | n + 1, v => (v % 256) :: leBytes n (v / 256)

/-- Value of a big-endian byte list: first byte is most significant.
Used to state value preservation of the DER integer encoding. -/
def beVal (l : List Nat) : Nat := l.foldl (fun acc b => acc * 256 + b) 0

/-- Every entry of the list is a byte. -/
def isBytes (l : List Nat) : Prop := ∀ b ∈ l, b < 256

instance (l : List Nat) : Decidable (isBytes l) := by
  unfold isBytes; infer_instance

/-- Signed reinterpretation of a `w`-bit unsigned value, as done by Node's
`readInt32LE` / `readBigInt64LE` after assembling the little-endian word. -/
def toSigned (w : Nat) (v : Nat) : Int :=
  if v < 2 ^ (w - 1) then (v : Int) else (v : Int) - 2 ^ w

/-- Two's-complement `w`-bit pattern of a signed value, as stored by Node's
`writeInt32LE` / `writeBigInt64LE` after their range check. -/
def toUnsigned (w : Nat) (v : Int) : Nat := (v % ((2 : Int) ^ w)).toNat

/-- Read `n` bytes at `off`, failing (as Node buffer reads throw
`RangeError`) when the read would run past the end of the buffer. -/
def readBytes (buf : List Nat) (off n : Nat) : Option (List Nat) :=
  if off + n ≤ buf.length then some ((buf.drop off).take n) else none

/-- Model of `buffer.readUInt16LE(off)`. -/
def readUInt16LE (buf : List Nat) (off : Nat) : Option Nat :=
  (readBytes buf off 2).map leVal

/-- Model of `buffer.readUInt32LE(off)`. -/
def readUInt32LE (buf : List Nat) (off : Nat) : Option Nat :=
  (readBytes buf off 4).map leVal

/-- Model of `buffer.readInt32LE(off)`. -/
def readInt32LE (buf : List Nat) (off : Nat) : Option Int :=
  (readBytes buf off 4).map (fun l => toSigned 32 (leVal l))

/-- Model of `buffer.readBigInt64LE(off)`. -/
def readBigInt64LE (buf : List Nat) (off : Nat) : Option Int :=
  (readBytes buf off 8).map (fun l => toSigned 64 (leVal l))

/-- Model of `buffer.slice(off, off + n)`: JavaScript `slice` clamps to the
buffer end instead of failing, so this is total. -/
def sliceClamped (buf : List Nat) (off n : Nat) : List Nat :=
  (buf.drop off).take n

/-- Failure modes of the transaction parser.  The source code only ever
throws Node's `RangeError` (from an out-of-bounds buffer read), modelled by
`rangeError`.  The constructor `malformedTransaction` is modelled from the
spec: the spec's error taxonomy names a `MalformedTransaction` parse error,
but nothing in the source defines or throws such an error. -/
inductive ParseFailure where
  | rangeError : ParseFailure
  | malformedTransaction : ParseFailure
deriving DecidableEq

/-- Lift an optional read into the parser, turning a failed (out-of-bounds)
read into the thrown `RangeError`. -/
def orRange {α : Type} (o : Option α) : Except ParseFailure α :=
  match o with
  | some a => Except.ok a
  | none => Except.error ParseFailure.rangeError

/-- Model of the source `readVarInt(buffer, offset)`.  When `offset` is past
the end, `buffer[offset]` is `undefined` in JavaScript, every comparison
with it is false, and control falls through to the final branch whose
4-byte read then throws.  Note the final (`0xff`) branch reads only the
first 4 of the following 8 bytes (the source comment says "we'll just use 4
for now") while still advancing the offset by 9. -/
def readVarInt (buf : List Nat) (off : Nat) : Except ParseFailure (Nat × Nat) :=
  if off < buf.length then
    let first := buf.getD off 0
    if first < 0xfd then Except.ok (first, off + 1)
    else if first = 0xfd then
      match readUInt16LE buf (off + 1) with
      | some v => Except.ok (v, off + 3)
      | none => Except.error ParseFailure.rangeError
    else if first = 0xfe then
      match readUInt32LE buf (off + 1) with
      | some v => Except.ok (v, off + 5)
      | none => Except.error ParseFailure.rangeError
    else
      match readUInt32LE buf (off + 1) with
      | some v => Except.ok (v, off + 9)
      | none => Except.error ParseFailure.rangeError
  else
    match readUInt32LE buf (off + 1) with
    | some v => Except.ok (v, off + 9)
    | none => Except.error ParseFailure.rangeError

/-- Model of the source `writeVarInt(value)`; `none` models the thrown
`Error('VarInt too large')`. -/
def writeVarInt (v : Nat) : Option (List Nat) :=
  if v < 0xfd then some [v]
  else if v ≤ 0xffff then some (0xfd :: leBytes 2 v)
  else if v ≤ 0xffffffff then some (0xfe :: leBytes 4 v)
  else none

/-- Composition used by the varint round-trip property: encode `v`, then
decode the resulting buffer at offset 0. -/
def roundVar (v : Nat) : Option (Nat × Nat) :=
  (writeVarInt v).bind (fun b => (readVarInt b 0).toOption)

/-- C7: reading back `writeVarInt v` returns `v` together with the encoded
width (1, 3 or 5 bytes) for each of the six specified values. -/
theorem c7_varint_roundtrip :
    roundVar 0 = some (0, 1) ∧
    roundVar 0xfc = some (0xfc, 1) ∧
    roundVar 0xfd = some (0xfd, 3) ∧
    roundVar 0xffff = some (0xffff, 3) ∧
    roundVar 0x10000 = some (0x10000, 5) ∧
    roundVar 0xffffffff = some (0xffffffff, 5) := by
  refine ⟨?_, ?_, ?_, ?_, ?_, ?_⟩ <;> rfl

/-- C6 counterexample: on a buffer whose byte at the offset is `0xff`,
`readVarInt` returns the 32-bit value of the first 4 following bytes (here
`1`), not the full 64-bit little-endian value of the 8 following bytes
(here `4294967297`), though it does advance the offset by 9. -/
theorem c6_counterexample :
    readVarInt [0xff, 1, 0, 0, 0, 1, 0, 0, 0] 0 = Except.ok (1, 9) ∧
    leVal [1, 0, 0, 0, 1, 0, 0, 0] = 4294967297 ∧
    (1 : Nat) ≠ 4294967297 := by
  refine ⟨rfl, rfl, by decide⟩

/-- C6 amended: when the byte at `off` is `0xff` and at least 5 bytes follow
it, `readVarInt` returns the 32-bit little-endian value of the first 4 of
the following 8 bytes — the 64-bit value truncated to 32 bits — with next
offset `off + 9`. -/
theorem c6_varint_ff_truncates (buf : List Nat) (off : Nat)
    (hoff : off < buf.length) (hfirst : buf.getD off 0 = 0xff)
    (hroom : off + 5 ≤ buf.length) :
    readVarInt buf off = Except.ok (leVal ((buf.drop (off + 1)).take 4), off + 9) := by
  unfold readVarInt
  rw [if_pos hoff, hfirst]
  norm_num [readUInt32LE, readBytes, Nat.add_comm, hroom]

/-- C6 witness input exercising the amended statement. -/
theorem c6_varint_ff_truncates_witness :
    readVarInt [0xff, 1, 0, 0, 0, 1, 0, 0, 0] 0 = Except.ok (leVal [1, 0, 0, 0], 9) :=
  c6_varint_ff_truncates [0xff, 1, 0, 0, 0, 1, 0, 0, 0] 0 (by decide) (by decide) (by decide)

/-- One transaction input, as produced by `parseTransaction`. -/
structure TxIn where
  txid : List Nat
  vout : Nat
  scriptSig : List Nat
  sequence : Nat
deriving DecidableEq

/-- One transaction output, as produced by `parseTransaction`. -/
structure TxOut where
  value : Int
  scriptPubKey : List Nat
deriving DecidableEq

/-- Parsed transaction.  The source record also carries the raw input buffer
(`raw`), which is derived data never consulted by the serializer or signer;
it is omitted here. -/
structure Transaction where
  version : Int
  versionGroupId : Nat
  inputs : List TxIn
  outputs : List TxOut
  lockTime : Nat
  expiryHeight : Nat
  valueBalance : Int
deriving DecidableEq

/-- Default input used to state positional lookups. -/
def defaultTxIn : TxIn := ⟨[], 0, [], 0⟩

/-- Test `(version & 0x80000000) !== 0` of the source: for an `int32`-range
JavaScript number this holds exactly when bit 31 of the two's-complement
pattern is set. -/
def overwinterBit (v : Int) : Bool := decide (2 ^ 31 ≤ toUnsigned 32 v)

/-- Condition `version >= 3 || (version & 0x80000000) !== 0` guarding the
expiry-height field in both the parser and the serializer. -/
def expiryPresent (v : Int) : Bool := decide (3 ≤ v) || overwinterBit v

/-- Condition `(version & 0x80000000) !== 0 && versionGroupId === 0x892f2085`
guarding the value-balance field in both the parser and the serializer. -/
def saplingPresent (v : Int) (g : Nat) : Bool := overwinterBit v && decide (g = 0x892f2085)

/-- Input-reading loop of `parseTransaction`, iterated `count` times.
`txid` and `scriptSig` come from clamping `slice`s; `vout` and `sequence`
from throwing fixed-width reads. -/
def readInputsLoop (buf : List Nat) : Nat → Nat → Except ParseFailure (List TxIn × Nat)
  | 0, off => Except.ok ([], off)
  | n + 1, off => do
    let txid := sliceClamped buf off 32
    let vout ← orRange (readUInt32LE buf (off + 32))
    let sl ← readVarInt buf (off + 36)
    let scriptSig := sliceClamped buf sl.2 sl.1
    let sequence ← orRange (readUInt32LE buf (sl.2 + sl.1))
    let rest ← readInputsLoop buf n (sl.2 + sl.1 + 4)
    Except.ok (⟨txid, vout, scriptSig, sequence⟩ :: rest.1, rest.2)

/-- Output-reading loop of `parseTransaction`, iterated `count` times. -/
def readOutputsLoop (buf : List Nat) : Nat → Nat → Except ParseFailure (List TxOut × Nat)
  | 0, off => Except.ok ([], off)
  | n + 1, off => do
    let value ← orRange (readBigInt64LE buf off)
    let sl ← readVarInt buf (off + 8)
    let scriptPubKey := sliceClamped buf sl.2 sl.1
    let rest ← readOutputsLoop buf n (sl.2 + sl.1)
    Except.ok (⟨value, scriptPubKey⟩ :: rest.1, rest.2)

/-- Model of the source `parseTransaction`, over the decoded byte buffer
(hex decoding is a bijection between even-length lowercase hex strings and
byte lists and is left implicit).  Unconsumed trailing bytes are ignored,
as in the source. -/
def parseTransaction (raw : List Nat) : Except ParseFailure Transaction := do
  let version ← orRange (readInt32LE raw 0)
  let vg ← if overwinterBit version then do
      let g ← orRange (readUInt32LE raw 4)
      Except.ok (g, 8)
    else Except.ok (0, 4)
  let ic ← readVarInt raw vg.2
  let ins ← readInputsLoop raw ic.1 ic.2
  let oc ← readVarInt raw ins.2
  let outs ← readOutputsLoop raw oc.1 oc.2
  let lockTime ← orRange (readUInt32LE raw outs.2)
  let ex ← if expiryPresent version then do
      let e ← orRange (readUInt32LE raw (outs.2 + 4))
      Except.ok (e, outs.2 + 8)
    else Except.ok (0, outs.2 + 4)
  let vb ← if saplingPresent version vg.1 then do
      let b ← orRange (readBigInt64LE raw ex.2)
      Except.ok b
    else Except.ok 0
  Except.ok ⟨version, vg.1, ins.1, outs.1, lockTime, ex.1, vb⟩

/-- Model of `Buffer.alloc(4).writeUInt32LE(v)`: range-checked write. -/
def writeUInt32LEOpt (v : Nat) : Option (List Nat) :=
  if v < 2 ^ 32 then some (leBytes 4 v) else none

/-- Model of `Buffer.alloc(4).writeInt32LE(v)`: range-checked write. -/
def writeInt32LEOpt (v : Int) : Option (List Nat) :=
  if -(2 ^ 31) ≤ v ∧ v < 2 ^ 31 then some (leBytes 4 (toUnsigned 32 v)) else none

/-- Model of `Buffer.alloc(8).writeBigInt64LE(v)`: range-checked write. -/
def writeBigInt64LEOpt (v : Int) : Option (List Nat) :=
  if -(2 ^ 63) ≤ v ∧ v < 2 ^ 63 then some (leBytes 8 (toUnsigned 64 v)) else none

/-- Serialization of one input inside `rebuildTransaction`. -/
def serInput (i : TxIn) : Option (List Nat) := do
  let voutB ← writeUInt32LEOpt i.vout
  let lenB ← writeVarInt i.scriptSig.length
  let seqB ← writeUInt32LEOpt i.sequence
  some (i.txid ++ voutB ++ lenB ++ i.scriptSig ++ seqB)

/-- Serialization of the input list inside `rebuildTransaction`. -/
def serInputs : List TxIn → Option (List Nat)
  | [] => some []
  | i :: rest => do
    let ib ← serInput i
    let rb ← serInputs rest
    some (ib ++ rb)

/-- Serialization of one output inside `rebuildTransaction`. -/
def serOutput (o : TxOut) : Option (List Nat) := do
  let valueB ← writeBigInt64LEOpt o.value
  let lenB ← writeVarInt o.scriptPubKey.length
  some (valueB ++ lenB ++ o.scriptPubKey)

/-- Serialization of the output list inside `rebuildTransaction`. -/
def serOutputs : List TxOut → Option (List Nat)
  | [] => some []
  | o :: rest => do
    let ob ← serOutput o
    let rb ← serOutputs rest
    some (ob ++ rb)

/-- Version-group-id segment of `rebuildTransaction`: written only when the
version's high bit is set. -/
def vgSeg (t : Transaction) : Option (List Nat) :=
  if overwinterBit t.version then writeUInt32LEOpt t.versionGroupId else some []

/-- Expiry-height segment of `rebuildTransaction`: written only when
`version >= 3` or the high bit is set. -/
def expirySeg (t : Transaction) : Option (List Nat) :=
  if expiryPresent t.version then writeUInt32LEOpt t.expiryHeight else some []

/-- Value-balance segment of `rebuildTransaction`: when the high bit is set
and the version group id is the Sapling magic, the value balance followed
by three empty varint counts (`vShieldedSpend`, `vShieldedOutput`,
`vJoinSplit`). -/
def saplingSeg (t : Transaction) : Option (List Nat) :=
  if saplingPresent t.version t.versionGroupId then do
    let vbB ← writeBigInt64LEOpt t.valueBalance
    let z ← writeVarInt 0
    some (vbB ++ z ++ z ++ z)
  else some []

/-- Model of the source `rebuildTransaction`, producing the byte list whose
lowercase hex is the source's return value; `none` models a thrown error
(`VarInt too large`, or an out-of-range fixed-width write).  The three
conditional segments of the source are the named helpers above. -/
def rebuildTransaction (t : Transaction) : Option (List Nat) := do
  let versionB ← writeInt32LEOpt t.version
  let vgB ← vgSeg t
  let icB ← writeVarInt t.inputs.length
  let insB ← serInputs t.inputs
  let ocB ← writeVarInt t.outputs.length
  let outsB ← serOutputs t.outputs
  let lockB ← writeUInt32LEOpt t.lockTime
  let exB ← expirySeg t
  let saplingB ← saplingSeg t
  some (versionB ++ vgB ++ icB ++ insB ++ ocB ++ outsB ++ lockB ++ exB ++ saplingB)

/-- Serialize-after-parse composition used by the round-trip property. -/
def reserialize (raw : List Nat) : Option (List Nat) :=
  match parseTransaction raw with
  | Except.ok t => rebuildTransaction t
  | Except.error _ => none

/-- Structural well-formedness needed for the parse/serialize inverse: the
three conditionally-present fields are zero when their condition is off
(exactly what `parseTransaction` guarantees), and every txid is 32 bytes
long. -/
def txStructOk (t : Transaction) : Prop :=
  (overwinterBit t.version = false → t.versionGroupId = 0) ∧
  (expiryPresent t.version = false → t.expiryHeight = 0) ∧
  (saplingPresent t.version t.versionGroupId = false → t.valueBalance = 0) ∧
  (∀ i ∈ t.inputs, i.txid.length = 32)

instance (t : Transaction) : Decidable (txStructOk t) := by
  unfold txStructOk; infer_instance

/-- Consensus branch id constant declared (but, as proved below, never
actually encoded into the personalization) by the source:
`CONSENSUS_BRANCH_ID = 0x76b809bb`. -/
def CONSENSUS_BRANCH_ID : Nat := 0x76b809bb

/-- ASCII bytes of the string `ZcashSigHash`. -/
def zcashSigHashAscii : List Nat :=
  [0x5a, 0x63, 0x61, 0x73, 0x68, 0x53, 0x69, 0x67, 0x48, 0x61, 0x73, 0x68]

/-- Personalization the source actually builds for the final sighash call:
`Buffer.from('ZcashSigHash' + '\x19\x1b\xa8\x5b')`.  Node's `Buffer.from`
on a string uses UTF-8, and the code unit `\xa8` (U+00A8) encodes as the
two bytes `0xc2 0xa8`, so the buffer is the 12 ASCII bytes of
`ZcashSigHash` followed by `0x19 0x1b 0xc2 0xa8 0x5b` — 17 bytes in
total. -/
def personalizationV4 : List Nat := zcashSigHashAscii ++ [0x19, 0x1b, 0xc2, 0xa8, 0x5b]

/-- ASCII bytes of `ZcashPrevoutHash` (16 bytes). -/
def zcashPrevoutTag : List Nat :=
  [0x5a, 0x63, 0x61, 0x73, 0x68, 0x50, 0x72, 0x65, 0x76, 0x6f, 0x75, 0x74, 0x48, 0x61, 0x73, 0x68]

/-- ASCII bytes of `ZcashSequencHash` (16 bytes). -/
def zcashSequenceTag : List Nat :=
  [0x5a, 0x63, 0x61, 0x73, 0x68, 0x53, 0x65, 0x71, 0x75, 0x65, 0x6e, 0x63, 0x48, 0x61, 0x73, 0x68]

/-- ASCII bytes of `ZcashOutputsHash` (16 bytes). -/
def zcashOutputsTag : List Nat :=
  [0x5a, 0x63, 0x61, 0x73, 0x68, 0x4f, 0x75, 0x74, 0x70, 0x75, 0x74, 0x73, 0x48, 0x61, 0x73, 0x68]

/-- Model of the source `blake2b256(data, personalization)`.  `blakePrim`
abstracts the dynamically imported noble `blake2b` with `dkLen 32` and the
given personalization; it returns `none` when the import fails or the call
throws.  `shaPrim` abstracts `createHash('sha256')`.  The source catches
any failure of the primitive, logs a console warning, and returns the
plain SHA-256 digest of `data` instead of failing. -/
def blake2b256 (blakePrim : List Nat → List Nat → Option (List Nat))
    (shaPrim : List Nat → List Nat) (data personalization : List Nat) : List Nat :=
  match blakePrim data personalization with
  | some d => d
  | none => shaPrim data

/-- Concatenation of `txid ++ vout` over the inputs, hashed into
`hashPrevouts` by `createSighashV4`. -/
def prevoutsSer : List TxIn → Option (List Nat)
  | [] => some []
  | i :: rest => do
    let voutB ← writeUInt32LEOpt i.vout
    let rb ← prevoutsSer rest
    some (i.txid ++ voutB ++ rb)

/-- Concatenation of the 4-byte sequence numbers over the inputs, hashed
into `hashSequence` by `createSighashV4`. -/
def sequenceSer : List TxIn → Option (List Nat)
  | [] => some []
  | i :: rest => do
    let seqB ← writeUInt32LEOpt i.sequence
    let rb ← sequenceSer rest
    some (seqB ++ rb)

/-- Concatenation of `value ++ varint(len) ++ script` over the outputs,
hashed into `hashOutputs` by `createSighashV4`. -/
def outputsSer : List TxOut → Option (List Nat)
  | [] => some []
  | o :: rest => do
    let valueB ← writeBigInt64LEOpt o.value
    let lenB ← writeVarInt o.scriptPubKey.length
    let rb ← outputsSer rest
    some (valueB ++ lenB ++ o.scriptPubKey ++ rb)

/-- Model of the source `createSighashV4`.  The hash primitives are
parameters (see `blake2b256`); `none` models a thrown error (out-of-range
write, too-large varint, or `tx.inputs[inputIndex]` being `undefined`). -/
def createSighashV4 (blakePrim : List Nat → List Nat → Option (List Nat))
    (shaPrim : List Nat → List Nat) (tx : Transaction) (inputIndex : Nat)
    (scriptCode : List Nat) (amount : Int) (hashType : Nat) : Option (List Nat) := do
  let prevoutsData ← prevoutsSer tx.inputs
  let hashPrevouts := blake2b256 blakePrim shaPrim prevoutsData zcashPrevoutTag
  let sequenceData ← sequenceSer tx.inputs
  let hashSequence := blake2b256 blakePrim shaPrim sequenceData zcashSequenceTag
  let outputsData ← outputsSer tx.outputs
  let hashOutputs := blake2b256 blakePrim shaPrim outputsData zcashOutputsTag
  let input ← tx.inputs.get? inputIndex
  let versionBuf ← writeInt32LEOpt tx.version
  let versionGroupBuf ← writeUInt32LEOpt tx.versionGroupId
  let amountBuf ← writeBigInt64LEOpt amount
  let sequenceBuf ← writeUInt32LEOpt input.sequence
  let lockTimeBuf ← writeUInt32LEOpt tx.lockTime
  let expiryBuf ← writeUInt32LEOpt tx.expiryHeight
  let hashTypeBuf ← writeUInt32LEOpt hashType
  let voutBuf ← writeUInt32LEOpt input.vout
  let scLenB ← writeVarInt scriptCode.length
  let preimage := versionBuf ++ versionGroupBuf ++ hashPrevouts ++ hashSequence ++
    hashOutputs ++ List.replicate 32 0 ++ List.replicate 32 0 ++ List.replicate 32 0 ++
    lockTimeBuf ++ expiryBuf ++ List.replicate 8 0 ++ hashTypeBuf ++ input.txid ++
    voutBuf ++ scLenB ++ scriptCode ++ amountBuf ++ sequenceBuf
  some (blake2b256 blakePrim shaPrim preimage personalizationV4)

/-- Stripping loop of `createDerSignature`: while the value is longer than
one byte, starts with a zero byte, and the next byte has a clear top bit,
drop the leading zero. -/
def stripDer : List Nat → List Nat
  | 0 :: b :: rest => if b &&& 0x80 = 0 then stripDer (b :: rest) else 0 :: b :: rest
  | l => l

/-- Sign-padding step of `createDerSignature`: prepend one zero byte when
the first byte has its top bit set (an empty buffer reads as `undefined`,
whose masking yields 0, hence no padding). -/
def derPad (x : List Nat) : List Nat :=
  if x.headD 0 &&& 0x80 ≠ 0 then 0 :: x else x

/-- Model of the source `createDerSignature(r, s)`.  `Buffer.from` truncates
each array entry to a byte, hence the `% 256` on the computed lengths. -/
def createDerSignature (r s : List Nat) : List Nat :=
  let r2 := stripDer (derPad r)
  let s2 := stripDer (derPad s)
  let totalLen := 4 + r2.length + s2.length
  [0x30, totalLen % 256, 0x02, r2.length % 256] ++ r2 ++ [0x02, s2.length % 256] ++ s2

/-- Model of the source `signInput`.  The secp256k1 signer (closed over the
WIF-derived private key) and the derived public key are parameters, since
they come from external libraries; `sign` returning `none` models both a
throwing primitive and the explicit `if (!signature) throw` check.  The
parse step's thrown errors propagate as `none`. -/
def signInput (blakePrim : List Nat → List Nat → Option (List Nat))
    (shaPrim : List Nat → List Nat) (sign : List Nat → Option (List Nat))
    (publicKey : List Nat) (txBytes : List Nat) (inputIndex : Nat)
    (prevScriptPubKey : List Nat) (amount : Int) : Option (List Nat) := do
  let tx ← (parseTransaction txBytes).toOption
  let sighash ← createSighashV4 blakePrim shaPrim tx inputIndex prevScriptPubKey amount 1
  let signature ← sign sighash
  let r := signature.take 32
  let s := (signature.drop 32).take 32
  let derSig := createDerSignature r s
  let sigWithHashType := derSig ++ [1]
  let scriptSig := sigWithHashType.length % 256 :: sigWithHashType ++
    publicKey.length % 256 :: publicKey
  let input ← tx.inputs.get? inputIndex
  let tx2 : Transaction := { tx with
    inputs := tx.inputs.set inputIndex { input with scriptSig := scriptSig } }
  rebuildTransaction tx2

/-- Model of `wifToPrivateKey` from `keys.ts`; `decode` abstracts
`bs58check.decode` (`none` models its checksum/alphabet exception). -/
def wifToPrivateKey (decode : List Nat → Option (List Nat)) (wif : List Nat) :
    Option (List Nat) := do
  let decoded ← decode wif
  if decoded.length = 34 then some ((decoded.drop 1).take 32)
  else some (decoded.drop 1)

/-- Model of `isCompressedWif` from `keys.ts`. -/
def isCompressedWif (decode : List Nat → Option (List Nat)) (wif : List Nat) :
    Option Bool := do
  let decoded ← decode wif
  some (decide (decoded.length = 34 ∧ decoded.getD 33 0 = 0x01))

/-- Model of `generateWif` from `keys.ts`, with the 32 random bytes and the
`bs58check.encode` primitive as parameters. -/
def generateWif (encode : List Nat → List Nat) (privateKey : List Nat)
    (compressed : Bool) : List Nat :=
  encode (if compressed then 0xbc :: privateKey ++ [0x01] else 0xbc :: privateKey)

/-- Minimal concrete parsed transaction (version 1, one all-zero input, no
outputs) used to exercise the sighash engine. -/
def txC1 : Transaction :=
  ⟨1, 0, [⟨List.replicate 32 0, 0, [], 0⟩], [], 0, 0, 0⟩

/-- C1: the personalization the sighash engine feeds to the final hash call
is 17 bytes long — the UTF-8 encoding of the source's string literal — and
is not `ZcashSigHash` followed by the 4-byte little-endian encoding of the
declared `CONSENSUS_BRANCH_ID` (which would be the 16-byte tag
`ZcashSigHash ++ [0xbb, 0x09, 0xb8, 0x76]`).  The last conjunct shows the
engine passing exactly this 17-byte tag to the hash primitive on a
concrete transaction, by instantiating the primitive with a function that
returns its personalization argument. -/
theorem c1_personalization_code_bug :
    personalizationV4.length = 17 ∧
    personalizationV4 ≠ zcashSigHashAscii ++ leBytes 4 CONSENSUS_BRANCH_ID ∧
    leBytes 4 CONSENSUS_BRANCH_ID = [0xbb, 0x09, 0xb8, 0x76] ∧
    createSighashV4 (fun _ pers => some pers) (fun d => d) txC1 0 [] 0 1 =
      some personalizationV4 := by
  refine ⟨by decide, by decide, by decide, rfl⟩

/-- C2 counterexample: with an unavailable BLAKE2b primitive (modelled by a
primitive that always fails) the source's `blake2b256` does not fail — it
returns the digest computed by the weaker fallback hash (here a transparent
stand-in for SHA-256). -/
theorem c2_counterexample :
    blake2b256 (fun _ _ => none) (fun d => 0 :: d) [1, 2, 3] [4, 5] = [0, 1, 2, 3] := rfl

/-- C2 amended: whenever the BLAKE2b primitive is unavailable or rejects
its arguments (returns `none`), `blake2b256` silently substitutes the plain
SHA-256 digest of the data — dropping the personalization — instead of
failing with an error; the only trace is a console warning. -/
theorem c2_silent_sha256_fallback
    (blakePrim : List Nat → List Nat → Option (List Nat))
    (shaPrim : List Nat → List Nat) (data personalization : List Nat)
    (hfail : blakePrim data personalization = none) :
    blake2b256 blakePrim shaPrim data personalization = shaPrim data := by
  unfold blake2b256
  rw [hfail]

/-- C2 witness: the fallback equation holds at a concrete failing primitive
and input. -/
theorem c2_silent_sha256_fallback_witness :
    blake2b256 (fun _ _ => none) (fun d => 0 :: d) [7] [9] = (fun d => 0 :: d) [7] :=
  c2_silent_sha256_fallback (fun _ _ => none) (fun d => 0 :: d) [7] [9] rfl

/-- C10: against any base58check pair satisfying the library's decode/encode
inverse contract, the WIF built from prefix `0xbc`, a 32-byte key and a
trailing `0x01` decodes back to exactly the key with the compression flag
set, the WIF built from `0xbc` and the key alone decodes back to the key
with the flag clear, and every `generateWif` output decodes to the key it
embedded with the matching flag. -/
theorem c10_wif_roundtrip (encode : List Nat → List Nat)
    (decode : List Nat → Option (List Nat))
    (hinv : ∀ p, decode (encode p) = some p)
    (k : List Nat) (hk : k.length = 32) :
    wifToPrivateKey decode (encode (0xbc :: k ++ [0x01])) = some k ∧
    isCompressedWif decode (encode (0xbc :: k ++ [0x01])) = some true ∧
    wifToPrivateKey decode (encode (0xbc :: k)) = some k ∧
    isCompressedWif decode (encode (0xbc :: k)) = some false ∧
    (∀ c, wifToPrivateKey decode (generateWif encode k c) = some k ∧
      isCompressedWif decode (generateWif encode k c) = some c) := by
  have hlen1 : (0xbc :: k ++ [0x01]).length = 34 := by simp [hk]
  have hlen2 : (0xbc :: k).length = 33 := by simp [hk]
  have hdrop : (0xbc :: k ++ [0x01]).drop 1 = k ++ [0x01] := rfl
  have htake : (k ++ [0x01]).take 32 = k := by
    rw [← hk, List.take_left]
  have hget : (k ++ [0x01])[32]?.getD 0 = 0x01 := by
    rw [List.getElem?_append_right (by omega), hk]
    simp
  have h1 : wifToPrivateKey decode (encode (0xbc :: k ++ [0x01])) = some k := by
    unfold wifToPrivateKey
    rw [hinv]
    simp [hlen1, hdrop, htake, hk]
  have h2 : isCompressedWif decode (encode (0xbc :: k ++ [0x01])) = some true := by
    unfold isCompressedWif
    rw [hinv]
    simp [hlen1, hget, hk]
  have h3 : wifToPrivateKey decode (encode (0xbc :: k)) = some k := by
    unfold wifToPrivateKey
    rw [hinv]
    simp [hlen2]
  have h4 : isCompressedWif decode (encode (0xbc :: k)) = some false := by
    unfold isCompressedWif
    rw [hinv]
    simp [hlen2]
  refine ⟨h1, h2, h3, h4, fun c => ?_⟩
  cases c
  · simpa [generateWif] using ⟨h3, h4⟩
  · simpa [generateWif] using ⟨h1, h2⟩

/-- C10 witness: the round-trip holds for a concrete inverse pair (identity
encoding) and the all-zero key. -/
theorem c10_wif_roundtrip_witness :
    wifToPrivateKey some (id (0xbc :: List.replicate 32 0 ++ [0x01])) =
      some (List.replicate 32 0) ∧
    isCompressedWif some (id (0xbc :: List.replicate 32 0 ++ [0x01])) = some true ∧
    wifToPrivateKey some (id (0xbc :: List.replicate 32 0)) =
      some (List.replicate 32 0) ∧
    isCompressedWif some (id (0xbc :: List.replicate 32 0)) = some false ∧
    (∀ c, wifToPrivateKey some (generateWif id (List.replicate 32 0) c) =
        some (List.replicate 32 0) ∧
      isCompressedWif some (generateWif id (List.replicate 32 0) c) = some c) :=
  c10_wif_roundtrip id some (fun _ => rfl) (List.replicate 32 0) (by decide)

/-- For a byte, masking with `0x80` gives zero exactly when the value is
below 128. -/
theorem byte_and_128 (b : Nat) (hb : b < 256) : b &&& 0x80 = 0 ↔ b < 128 := by
  have h : b &&& 0x80 = (b.testBit 7).toNat * 2 ^ 7 := by
    simpa using Nat.and_two_pow b 7
  have ht : b.testBit 7 = decide (b / 2 ^ 7 % 2 = 1) := Nat.testBit_to_div_mod
  rw [ht] at h
  norm_num at h
  by_cases hbit : b / 128 % 2 = 1 <;> simp [hbit] at h <;> rw [h] <;> norm_num <;> omega

/-- A value whose `0x80` mask is non-zero is at least 128. -/
theorem and_128_ge (b : Nat) (h : b &&& 0x80 ≠ 0) : 0x80 ≤ b := by
  have h2 : b &&& 0x80 ≤ b := Nat.and_le_left
  have h3 : b &&& 0x80 = (b.testBit 7).toNat * 2 ^ 7 := by
    simpa using Nat.and_two_pow b 7
  by_cases hbit : b.testBit 7 <;> simp [hbit] at h3 <;> omega

/-- Prepending a zero byte does not change the big-endian value. -/
theorem beVal_cons_zero (t : List Nat) : beVal (0 :: t) = beVal t := by
  simp [beVal]

/-- Stripping leading zero bytes preserves the big-endian value. -/
theorem stripDer_beVal (l : List Nat) : beVal (stripDer l) = beVal l := by
  induction l using stripDer.induct with
  | case1 b rest hb ih => rw [stripDer, if_pos hb, ih, beVal_cons_zero]
  | case2 b rest hb => rw [stripDer, if_neg hb]
  | case3 l h1 => rw [stripDer]; exact h1

/-- Stripping never lengthens the value. -/
theorem stripDer_length_le (l : List Nat) : (stripDer l).length ≤ l.length := by
  induction l using stripDer.induct with
  | case1 b rest hb ih => rw [stripDer, if_pos hb]; simp at ih ⊢; omega
  | case2 b rest hb => rw [stripDer, if_neg hb]
  | case3 l h1 => rw [stripDer]; exact h1

/-- Stripping preserves a clear top bit of the first byte. -/
theorem stripDer_head (l : List Nat) (hl : ∀ b ∈ l, b < 256)
    (hh : l.headD 0 < 128) : (stripDer l).headD 0 < 128 := by
  induction l using stripDer.induct with
  | case1 b rest hb ih =>
    rw [stripDer, if_pos hb]
    refine ih (fun x hx => hl x (by simp at hx ⊢; tauto)) ?_
    have hblt : b < 256 := hl b (by simp)
    simpa using (byte_and_128 b hblt).mp hb
  | case2 b rest hb => rw [stripDer, if_neg hb]; exact hh
  | case3 l h1 => rw [stripDer]; exact hh; exact h1

/-- Result of the stripping loop is in shortest form: it is a single byte,
or does not start with a zero byte, or its zero first byte is followed by a
byte with the top bit set. -/
theorem stripDer_minimal (l : List Nat) :
    (stripDer l).length ≤ 1 ∨ (stripDer l).headD 0 ≠ 0 ∨ 0x80 ≤ (stripDer l).getD 1 0 := by
  induction l using stripDer.induct with
  | case1 b rest hb ih => rw [stripDer, if_pos hb]; exact ih
  | case2 b rest hb =>
    rw [stripDer, if_neg hb]
    right; right
    simpa [List.getD] using and_128_ge b hb
  | case3 l h1 =>
    rw [stripDer]
    · match l, h1 with
      | [], _ => left; simp
      | [a], _ => left; simp
      | a :: b :: rest, h1 =>
        right; left
        simp only [List.headD_cons]
        intro ha
        exact h1 b rest (by rw [ha])
    · exact h1

/-- Combined facts about one DER integer side: value preserved, clear sign
bit, and bounded length. -/
theorem derSide_facts (x : List Nat) (hx : x.length = 32) (hxb : isBytes x) :
    beVal (stripDer (derPad x)) = beVal x ∧
    (stripDer (derPad x)).headD 0 < 128 ∧
    (stripDer (derPad x)).length ≤ 33 := by
  have hne : x ≠ [] := by intro h; rw [h] at hx; simp at hx
  have hpadB : ∀ b ∈ derPad x, b < 256 := by
    intro b hb
    unfold derPad at hb
    split at hb
    · rcases List.mem_cons.mp hb with h | h
      · omega
      · exact hxb b h
    · exact hxb b hb
  have hpadVal : beVal (derPad x) = beVal x := by
    unfold derPad
    split
    · exact beVal_cons_zero x
    · rfl
  have hpadLen : (derPad x).length ≤ 33 := by
    unfold derPad
    split <;> simp [hx]
  have hpadHead : (derPad x).headD 0 < 128 := by
    unfold derPad
    split
    · simp
    · rename_i h
      push_neg at h
      have hhx : x.headD 0 < 256 := by
        cases x with
        | nil => simp
        | cons a t => exact hxb a (by simp)
      simpa using (byte_and_128 (x.headD 0) hhx).mp h
  refine ⟨?_, ?_, ?_⟩
  · rw [stripDer_beVal, hpadVal]
  · exact stripDer_head (derPad x) hpadB hpadHead
  · exact le_trans (stripDer_length_le (derPad x)) hpadLen

/-- C8: for 32-byte `r` and `s`, `createDerSignature` lays the encoding out
as `0x30, totalLen, 0x02, rLen, r, 0x02, sLen, s` with
`totalLen = 4 + len r + len s`, where each integer keeps its numeric value,
has a clear top bit in its first byte, and is in shortest form (so leading
zeros are stripped, and a zero is prepended exactly when the sign bit would
otherwise be set). -/
theorem c8_der_signature (r s : List Nat)
    (hr : r.length = 32) (hs : s.length = 32) (hrb : isBytes r) (hsb : isBytes s) :
    ∃ R S, R = stripDer (derPad r) ∧ S = stripDer (derPad s) ∧
      createDerSignature r s =
        [0x30, 4 + R.length + S.length, 0x02, R.length] ++ R ++ [0x02, S.length] ++ S ∧
      beVal R = beVal r ∧ beVal S = beVal s ∧
      R.headD 0 < 0x80 ∧ S.headD 0 < 0x80 ∧
      (R.length ≤ 1 ∨ R.headD 0 ≠ 0 ∨ 0x80 ≤ R.getD 1 0) ∧
      (S.length ≤ 1 ∨ S.headD 0 ≠ 0 ∨ 0x80 ≤ S.getD 1 0) := by
  obtain ⟨hval_r, hhead_r, hlen_r⟩ := derSide_facts r hr hrb
  obtain ⟨hval_s, hhead_s, hlen_s⟩ := derSide_facts s hs hsb
  refine ⟨stripDer (derPad r), stripDer (derPad s), rfl, rfl, ?_, hval_r, hval_s,
    hhead_r, hhead_s, stripDer_minimal (derPad r), stripDer_minimal (derPad s)⟩
  unfold createDerSignature
  dsimp only
  rw [Nat.mod_eq_of_lt (by omega), Nat.mod_eq_of_lt (by omega),
    Nat.mod_eq_of_lt (by omega)]

/-- C8 witness: the statement instantiated at a concrete high-bit `r` and a
low-bit `s`. -/
theorem c8_der_signature_witness :
    ∃ R S, R = stripDer (derPad (0x80 :: List.replicate 31 0)) ∧
      S = stripDer (derPad (List.replicate 32 0x7f)) ∧
      createDerSignature (0x80 :: List.replicate 31 0) (List.replicate 32 0x7f) =
        [0x30, 4 + R.length + S.length, 0x02, R.length] ++ R ++ [0x02, S.length] ++ S ∧
      beVal R = beVal (0x80 :: List.replicate 31 0) ∧
      beVal S = beVal (List.replicate 32 0x7f) ∧
      R.headD 0 < 0x80 ∧ S.headD 0 < 0x80 ∧
      (R.length ≤ 1 ∨ R.headD 0 ≠ 0 ∨ 0x80 ≤ R.getD 1 0) ∧
      (S.length ≤ 1 ∨ S.headD 0 ≠ 0 ∨ 0x80 ≤ S.getD 1 0) :=
  c8_der_signature (0x80 :: List.replicate 31 0) (List.replicate 32 0x7f)
    (by decide) (by decide) (by decide) (by decide)

/-- Inversion of a successful unsigned 32-bit write. -/
theorem writeUInt32LEOpt_eq (v : Nat) (a : List Nat) (h : writeUInt32LEOpt v = some a) :
    a = leBytes 4 v ∧ v < 2 ^ 32 := by
  unfold writeUInt32LEOpt at h
  split at h <;> simp_all

/-- Inversion of a successful signed 32-bit write. -/
theorem writeInt32LEOpt_eq (v : Int) (a : List Nat) (h : writeInt32LEOpt v = some a) :
    a = leBytes 4 (toUnsigned 32 v) ∧ -(2 ^ 31) ≤ v ∧ v < 2 ^ 31 := by
  unfold writeInt32LEOpt at h
  split at h <;> simp_all

/-- Inversion of a successful signed 64-bit write. -/
theorem writeBigInt64LEOpt_eq (v : Int) (a : List Nat) (h : writeBigInt64LEOpt v = some a) :
    a = leBytes 8 (toUnsigned 64 v) ∧ -(2 ^ 63) ≤ v ∧ v < 2 ^ 63 := by
  unfold writeBigInt64LEOpt at h
  split at h <;> simp_all

/-- C4: a successful serialization consists of the version word, then the
version group id exactly when the version's high bit is set, then the
counted inputs and outputs, then the lock time, then the expiry height
exactly when `version >= 3` or the high bit is set, and finally — exactly
when the high bit is set and the version group id is the Sapling magic
`0x892f2085` — the value balance followed by three empty varint counts.
Presence is recomputed from `version`/`versionGroupId` alone, whatever the
other field values are. -/
theorem c4_rebuild_layout (t : Transaction) (x : List Nat)
    (h : rebuildTransaction t = some x) :
    ∃ icB insB ocB outsB,
      writeVarInt t.inputs.length = some icB ∧ serInputs t.inputs = some insB ∧
      writeVarInt t.outputs.length = some ocB ∧ serOutputs t.outputs = some outsB ∧
      x = leBytes 4 (toUnsigned 32 t.version) ++
        (if overwinterBit t.version then leBytes 4 t.versionGroupId else []) ++
        icB ++ insB ++ ocB ++ outsB ++ leBytes 4 t.lockTime ++
        (if expiryPresent t.version then leBytes 4 t.expiryHeight else []) ++
        (if saplingPresent t.version t.versionGroupId then
          leBytes 8 (toUnsigned 64 t.valueBalance) ++ [0, 0, 0] else []) := by
  unfold rebuildTransaction at h
  simp only [bind, Option.bind_eq_some] at h
  obtain ⟨versionB, hv, vgB, hvg, icB, hic, insB, hins, ocB, hoc, outsB, houts,
    lockB, hlock, exB, hex, saplingB, hsap, hx⟩ := h
  obtain ⟨rfl, -, -⟩ := writeInt32LEOpt_eq _ _ hv
  obtain ⟨rfl, -⟩ := writeUInt32LEOpt_eq _ _ hlock
  refine ⟨icB, insB, ocB, outsB, hic, hins, hoc, houts, ?_⟩
  simp only [Option.some.injEq] at hx
  subst hx
  have hvg2 : vgB = if overwinterBit t.version then leBytes 4 t.versionGroupId else [] := by
    unfold vgSeg at hvg
    cases hbit : overwinterBit t.version <;> rw [hbit] at hvg <;> simp at hvg ⊢
    · exact hvg
    · exact (writeUInt32LEOpt_eq _ _ hvg).1
  have hex2 : exB = if expiryPresent t.version then leBytes 4 t.expiryHeight else [] := by
    unfold expirySeg at hex
    cases hb : expiryPresent t.version <;> rw [hb] at hex <;> simp at hex ⊢
    · exact hex
    · exact (writeUInt32LEOpt_eq _ _ hex).1
  have hsap2 : saplingB = if saplingPresent t.version t.versionGroupId then
      leBytes 8 (toUnsigned 64 t.valueBalance) ++ [0, 0, 0] else [] := by
    unfold saplingSeg at hsap
    cases hb : saplingPresent t.version t.versionGroupId <;> rw [hb] at hsap <;>
      simp only [bind, Option.bind_eq_some, Option.some.injEq, if_true, if_false,
        Bool.false_eq_true, Bool.true_eq_false, reduceIte] at hsap ⊢
    · exact hsap.symm
    · obtain ⟨vbB, hvb, z, hz, hs⟩ := hsap
      obtain ⟨rfl, -, -⟩ := writeBigInt64LEOpt_eq _ _ hvb
      unfold writeVarInt at hz
      simp at hz
      subst hz
      simpa using hs.symm
  rw [hvg2, hex2, hsap2]

/-- Transaction with noncanonical stray field values (nonzero version group
id, expiry height and value balance under a legacy version) used to witness
that serialization recomputes presence from the flags. -/
def txC4 : Transaction := ⟨1, 7, [], [], 5, 9, 11⟩

/-- C4 witness: the layout holds at a concrete transaction whose stray
fields are dropped by serialization. -/
theorem c4_rebuild_layout_witness :
    ∃ icB insB ocB outsB,
      writeVarInt txC4.inputs.length = some icB ∧ serInputs txC4.inputs = some insB ∧
      writeVarInt txC4.outputs.length = some ocB ∧ serOutputs txC4.outputs = some outsB ∧
      (rebuildTransaction txC4).getD [] = leBytes 4 (toUnsigned 32 txC4.version) ++
        (if overwinterBit txC4.version then leBytes 4 txC4.versionGroupId else []) ++
        icB ++ insB ++ ocB ++ outsB ++ leBytes 4 txC4.lockTime ++
        (if expiryPresent txC4.version then leBytes 4 txC4.expiryHeight else []) ++
        (if saplingPresent txC4.version txC4.versionGroupId then
          leBytes 8 (toUnsigned 64 txC4.valueBalance) ++ [0, 0, 0] else []) :=
  c4_rebuild_layout txC4 ((rebuildTransaction txC4).getD []) rfl

/-- Unfolding of `leVal` on a cons cell. -/
theorem leVal_cons (b : Nat) (l : List Nat) : leVal (b :: l) = b + 256 * leVal l := rfl

/-- A little-endian encoding has exactly the requested width. -/
theorem leBytes_length (n v : Nat) : (leBytes n v).length = n := by
  induction n generalizing v with
  | zero => rfl
  | succ n ih => simp [leBytes, ih]

/-- Every entry of a little-endian encoding is a byte. -/
theorem leBytes_isBytes (n v : Nat) : isBytes (leBytes n v) := by
  induction n generalizing v with
  | zero => intro b hb; simp [leBytes] at hb
  | succ n ih =>
    intro b hb
    rw [leBytes] at hb
    rcases List.mem_cons.mp hb with h | h
    · omega
    · exact ih (v / 256) b h

/-- Decoding a little-endian encoding recovers the value modulo the width. -/
theorem leVal_leBytes_mod (n v : Nat) : leVal (leBytes n v) = v % 2 ^ (8 * n) := by
  induction n generalizing v with
  | zero => simp [leBytes, leVal, Nat.mod_one]
  | succ n ih =>
    rw [leBytes, leVal_cons, ih]
    have h : 2 ^ (8 * (n + 1)) = 256 * 2 ^ (8 * n) := by
      rw [Nat.mul_succ, pow_add]
      ring
    rw [h, Nat.mod_mul]

/-- Decoding a little-endian encoding of an in-range value recovers it. -/
theorem leVal_leBytes (n v : Nat) (h : v < 2 ^ (8 * n)) : leVal (leBytes n v) = v := by
  rw [leVal_leBytes_mod, Nat.mod_eq_of_lt h]

/-- The two's-complement pattern is within the width's range. -/
theorem toUnsigned_lt (w : Nat) (v : Int) : toUnsigned w v < 2 ^ w := by
  unfold toUnsigned
  have h1 : (0:Int) < 2 ^ w := by positivity
  have h2 := Int.emod_lt_of_pos v h1
  have h3 := Int.emod_nonneg v (ne_of_gt h1)
  have hc : ((2 ^ w : Nat) : Int) = (2:Int) ^ w := by push_cast; ring
  omega

/-- Reading back a stored two's-complement pattern recovers the signed
value when it lies in the signed range of the width. -/
theorem toSigned_toUnsigned (w : Nat) (v : Int) (hw : 1 ≤ w)
    (hlo : -(2 ^ (w - 1)) ≤ v) (hhi : v < 2 ^ (w - 1)) :
    toSigned w (toUnsigned w v) = v := by
  have h2w : (2:Int) ^ w = 2 * 2 ^ (w - 1) := by
    conv_lhs => rw [show w = (w - 1) + 1 by omega]
    ring
  have h1 : (0:Int) < 2 ^ w := by positivity
  have hc : ((2 ^ (w - 1) : Nat) : Int) = (2:Int) ^ (w - 1) := by push_cast; ring
  have hc2 : ((2 ^ w : Nat) : Int) = (2:Int) ^ w := by push_cast; ring
  unfold toSigned toUnsigned
  rcases le_or_lt 0 v with hv | hv
  · have hmod : v % 2 ^ w = v := Int.emod_eq_of_lt hv (by omega)
    rw [hmod]
    split <;> rename_i hsp <;> omega
  · have e1 : (v + 2 ^ w) % 2 ^ w = v % 2 ^ w := by
      have := @Int.add_mul_emod_self_left v (2 ^ w) 1
      rw [mul_one] at this
      exact this
    have hmod : v % 2 ^ w = v + 2 ^ w := by
      rw [← e1]
      exact Int.emod_eq_of_lt (by omega) (by omega)
    rw [hmod]
    split <;> rename_i hsp <;> omega

/-- Reading `mid.length` bytes at an offset whose suffix starts with `mid`
yields `mid`. -/
theorem readBytes_drop (buf mid rest : List Nat) (off n : Nat)
    (hoff : off ≤ buf.length) (hdrop : buf.drop off = mid ++ rest)
    (hn : mid.length = n) : readBytes buf off n = some mid := by
  have hlen : (buf.drop off).length = buf.length - off := List.length_drop ..
  rw [hdrop] at hlen
  simp at hlen
  unfold readBytes
  rw [if_pos (by omega), hdrop, ← hn, List.take_left]

/-- A clamped slice of `mid.length` bytes at an offset whose suffix starts
with `mid` yields `mid` (no bound needed: the suffix is long enough). -/
theorem sliceClamped_drop (buf mid rest : List Nat) (off n : Nat)
    (hdrop : buf.drop off = mid ++ rest) (hn : mid.length = n) :
    sliceClamped buf off n = mid := by
  unfold sliceClamped
  rw [hdrop, ← hn, List.take_left]

/-- Consuming `mid` advances the suffix. -/
theorem drop_advance (buf mid rest : List Nat) (off n : Nat)
    (hdrop : buf.drop off = mid ++ rest) (hn : mid.length = n) :
    buf.drop (off + n) = rest := by
  rw [← List.drop_drop n off buf, hdrop, ← hn, List.drop_left]

/-- Consuming `mid` keeps the offset within the buffer. -/
theorem off_advance_le (buf mid rest : List Nat) (off n : Nat)
    (hoff : off ≤ buf.length) (hdrop : buf.drop off = mid ++ rest)
    (hn : mid.length = n) : off + n ≤ buf.length := by
  have hlen : (buf.drop off).length = buf.length - off := List.length_drop ..
  rw [hdrop] at hlen
  simp at hlen
  omega

/-- Unsigned 32-bit read of a stored little-endian word. -/
theorem readUInt32LE_drop (buf rest : List Nat) (off v : Nat)
    (hoff : off ≤ buf.length) (hdrop : buf.drop off = leBytes 4 v ++ rest)
    (hv : v < 2 ^ 32) : readUInt32LE buf off = some v := by
  unfold readUInt32LE
  rw [readBytes_drop buf (leBytes 4 v) rest off 4 hoff hdrop (leBytes_length 4 v)]
  simp [leVal_leBytes 4 v hv]

/-- Signed 32-bit read of a stored two's-complement little-endian word. -/
theorem readInt32LE_drop (buf rest : List Nat) (off : Nat) (v : Int)
    (hoff : off ≤ buf.length)
    (hdrop : buf.drop off = leBytes 4 (toUnsigned 32 v) ++ rest)
    (hlo : -(2 ^ 31) ≤ v) (hhi : v < 2 ^ 31) : readInt32LE buf off = some v := by
  unfold readInt32LE
  rw [readBytes_drop buf (leBytes 4 (toUnsigned 32 v)) rest off 4 hoff hdrop
    (leBytes_length 4 (toUnsigned 32 v))]
  simp only [Option.map_some']
  rw [leVal_leBytes 4 (toUnsigned 32 v) (toUnsigned_lt 32 v),
    toSigned_toUnsigned 32 v (by omega) hlo hhi]

/-- Signed 64-bit read of a stored two's-complement little-endian word. -/
theorem readBigInt64LE_drop (buf rest : List Nat) (off : Nat) (v : Int)
    (hoff : off ≤ buf.length)
    (hdrop : buf.drop off = leBytes 8 (toUnsigned 64 v) ++ rest)
    (hlo : -(2 ^ 63) ≤ v) (hhi : v < 2 ^ 63) : readBigInt64LE buf off = some v := by
  unfold readBigInt64LE
  rw [readBytes_drop buf (leBytes 8 (toUnsigned 64 v)) rest off 8 hoff hdrop
    (leBytes_length 8 (toUnsigned 64 v))]
  simp only [Option.map_some']
  rw [leVal_leBytes 8 (toUnsigned 64 v) (toUnsigned_lt 64 v),
    toSigned_toUnsigned 64 v (by omega) hlo hhi]

/-- First byte of the suffix at an offset. -/
theorem getD_drop (buf mid rest : List Nat) (off b0 : Nat)
    (hdrop : buf.drop off = (b0 :: mid) ++ rest) : buf.getD off 0 = b0 := by
  have h : buf[off]? = (buf.drop off)[0]? := by
    rw [List.getElem?_drop]
    norm_num
  rw [List.getD_eq_getElem?_getD, h, hdrop]
  simp

/-- A suffix beginning with a nonempty segment keeps the offset strictly
inside the buffer. -/
theorem off_lt_of_drop_cons (buf mid rest : List Nat) (off b0 : Nat)
    (hdrop : buf.drop off = (b0 :: mid) ++ rest) : off < buf.length := by
  have hlen : (buf.drop off).length = buf.length - off := List.length_drop ..
  rw [hdrop] at hlen
  simp at hlen
  omega

/-- Unsigned 16-bit read of a stored little-endian word. -/
theorem readUInt16LE_drop (buf rest : List Nat) (off v : Nat)
    (hoff : off ≤ buf.length) (hdrop : buf.drop off = leBytes 2 v ++ rest)
    (hv : v < 2 ^ 16) : readUInt16LE buf off = some v := by
  unfold readUInt16LE
  rw [readBytes_drop buf (leBytes 2 v) rest off 2 hoff hdrop (leBytes_length 2 v)]
  simp [leVal_leBytes 2 v hv]

/-- Reading back a canonical varint encoding produced by `writeVarInt`
returns the value and advances past the encoding. -/
theorem readVarInt_write (v : Nat) (b : List Nat) (hw : writeVarInt v = some b)
    (buf rest : List Nat) (off : Nat) (_hoff : off ≤ buf.length)
    (hdrop : buf.drop off = b ++ rest) :
    readVarInt buf off = Except.ok (v, off + b.length) := by
  unfold writeVarInt at hw
  split at hw
  · rename_i h1
    simp only [Option.some.injEq] at hw
    subst hw
    rw [readVarInt, if_pos (off_lt_of_drop_cons buf [] rest off v hdrop),
      getD_drop buf [] rest off v hdrop]
    simp only [List.length_cons, List.length_nil]
    rw [if_pos h1]
  · split at hw
    · rename_i h1 h2
      simp only [Option.some.injEq] at hw
      subst hw
      have hdrop2 : buf.drop (off + 1) = leBytes 2 v ++ rest :=
        drop_advance buf [0xfd] (leBytes 2 v ++ rest) off 1 (by simpa using hdrop) rfl
      have hlt : off < buf.length := off_lt_of_drop_cons buf (leBytes 2 v) rest off 0xfd hdrop
      have hv16 : v < 2 ^ 16 := by norm_num; omega
      rw [readVarInt, if_pos hlt, getD_drop buf (leBytes 2 v) rest off 0xfd hdrop]
      norm_num
      rw [readUInt16LE_drop buf rest (off + 1) v (by omega) hdrop2 hv16]
      simp [leBytes_length]
    · split at hw
      · rename_i h1 h2 h3
        simp only [Option.some.injEq] at hw
        subst hw
        have hdrop2 : buf.drop (off + 1) = leBytes 4 v ++ rest :=
          drop_advance buf [0xfe] (leBytes 4 v ++ rest) off 1 (by simpa using hdrop) rfl
        have hlt : off < buf.length := off_lt_of_drop_cons buf (leBytes 4 v) rest off 0xfe hdrop
        have hv32 : v < 2 ^ 32 := by norm_num; omega
        rw [readVarInt, if_pos hlt, getD_drop buf (leBytes 4 v) rest off 0xfe hdrop]
        norm_num
        rw [readUInt32LE_drop buf rest (off + 1) v (by omega) hdrop2 hv32]
        simp [leBytes_length]
      · exact absurd hw (by simp)

/-- `orRange` on a successful read. -/
theorem orRange_some {α : Type} (a : α) : orRange (some a) = Except.ok a := rfl

/-- Inversion of a successful input serialization. -/
theorem serInput_eq (i : TxIn) (b : List Nat) (h : serInput i = some b) :
    ∃ lenB, writeVarInt i.scriptSig.length = some lenB ∧
      i.vout < 2 ^ 32 ∧ i.sequence < 2 ^ 32 ∧
      b = i.txid ++ (leBytes 4 i.vout ++ (lenB ++ (i.scriptSig ++ leBytes 4 i.sequence))) := by
  unfold serInput at h
  simp only [bind, Option.bind_eq_some, Option.some.injEq] at h
  obtain ⟨voutB, hvout, lenB, hlen, seqB, hseq, hb⟩ := h
  obtain ⟨rfl, hv⟩ := writeUInt32LEOpt_eq _ _ hvout
  obtain ⟨rfl, hs⟩ := writeUInt32LEOpt_eq _ _ hseq
  exact ⟨lenB, hlen, hv, hs, by rw [← hb]; simp [List.append_assoc]⟩

/-- Inversion of a successful output serialization. -/
theorem serOutput_eq (o : TxOut) (b : List Nat) (h : serOutput o = some b) :
    ∃ lenB, writeVarInt o.scriptPubKey.length = some lenB ∧
      -(2 ^ 63) ≤ o.value ∧ o.value < 2 ^ 63 ∧
      b = leBytes 8 (toUnsigned 64 o.value) ++ (lenB ++ o.scriptPubKey) := by
  unfold serOutput at h
  simp only [bind, Option.bind_eq_some, Option.some.injEq] at h
  obtain ⟨valueB, hvalue, lenB, hlen, hb⟩ := h
  obtain ⟨rfl, hlo, hhi⟩ := writeBigInt64LEOpt_eq _ _ hvalue
  exact ⟨lenB, hlen, hlo, hhi, by rw [← hb]; simp [List.append_assoc]⟩

/-- Running the input-reading loop over a serialized input list recovers
the list and consumes exactly the serialized bytes. -/
theorem readInputsLoop_ser (l : List TxIn) (blob : List Nat)
    (hser : serInputs l = some blob) (htx : ∀ i ∈ l, i.txid.length = 32) :
    ∀ (buf rest : List Nat) (off : Nat), off ≤ buf.length →
      buf.drop off = blob ++ rest →
      readInputsLoop buf l.length off = Except.ok (l, off + blob.length) := by
  induction l generalizing blob with
  | nil =>
    intro buf rest off hoff hdrop
    simp only [serInputs, Option.some.injEq] at hser
    subst hser
    simp [readInputsLoop]
  | cons i tl ih =>
    intro buf rest off hoff hdrop
    obtain ⟨ib, hib, rb, hrb, rfl⟩ : ∃ ib, serInput i = some ib ∧
        ∃ rb, serInputs tl = some rb ∧ blob = ib ++ rb := by
      unfold serInputs at hser
      simp only [bind, Option.bind_eq_some, Option.some.injEq] at hser
      obtain ⟨ib, hib, rb, hrb, hblob⟩ := hser
      exact ⟨ib, hib, rb, hrb, hblob.symm⟩
    obtain ⟨lenB, hlen, hvout, hseq, hibeq⟩ := serInput_eq i ib hib
    subst hibeq
    have htxid : i.txid.length = 32 := htx i (by simp)
    simp only [List.append_assoc] at hdrop
    have hd1 : buf.drop off = i.txid ++ (leBytes 4 i.vout ++ (lenB ++
        (i.scriptSig ++ (leBytes 4 i.sequence ++ (rb ++ rest))))) := by
      rw [hdrop]
    have s1 : sliceClamped buf off 32 = i.txid := sliceClamped_drop _ _ _ _ _ hd1 htxid
    have ho1 : off + 32 ≤ buf.length := off_advance_le _ _ _ _ _ hoff hd1 htxid
    have hd2 : buf.drop (off + 32) = leBytes 4 i.vout ++ (lenB ++
        (i.scriptSig ++ (leBytes 4 i.sequence ++ (rb ++ rest)))) :=
      drop_advance _ _ _ _ _ hd1 htxid
    have s2 : readUInt32LE buf (off + 32) = some i.vout :=
      readUInt32LE_drop _ _ _ _ ho1 hd2 hvout
    have ho2 : off + 32 + 4 ≤ buf.length := off_advance_le _ _ _ _ _ ho1 hd2 (leBytes_length 4 _)
    have hd3 : buf.drop (off + 32 + 4) = lenB ++
        (i.scriptSig ++ (leBytes 4 i.sequence ++ (rb ++ rest))) :=
      drop_advance _ _ _ _ _ hd2 (leBytes_length 4 _)
    have s3 : readVarInt buf (off + 36) = Except.ok (i.scriptSig.length, off + 36 + lenB.length) := by
      have := readVarInt_write _ _ hlen buf _ (off + 32 + 4) ho2 hd3
      simpa [Nat.add_assoc] using this
    have ho3 : off + 32 + 4 + lenB.length ≤ buf.length := off_advance_le _ _ _ _ _ ho2 hd3 rfl
    have hd4 : buf.drop (off + 32 + 4 + lenB.length) =
        i.scriptSig ++ (leBytes 4 i.sequence ++ (rb ++ rest)) :=
      drop_advance _ _ _ _ _ hd3 rfl
    have s4 : sliceClamped buf (off + 36 + lenB.length) i.scriptSig.length = i.scriptSig := by
      have := sliceClamped_drop _ _ _ (off + 32 + 4 + lenB.length) _ hd4 rfl
      simpa [Nat.add_assoc] using this
    have ho4 : off + 32 + 4 + lenB.length + i.scriptSig.length ≤ buf.length :=
      off_advance_le _ _ _ _ _ ho3 hd4 rfl
    have hd5 : buf.drop (off + 32 + 4 + lenB.length + i.scriptSig.length) =
        leBytes 4 i.sequence ++ (rb ++ rest) := drop_advance _ _ _ _ _ hd4 rfl
    have s5 : readUInt32LE buf (off + 36 + lenB.length + i.scriptSig.length) = some i.sequence := by
      have := readUInt32LE_drop _ _ (off + 32 + 4 + lenB.length + i.scriptSig.length) _ ho4 hd5 hseq
      simpa [Nat.add_assoc] using this
    have ho5 : off + 32 + 4 + lenB.length + i.scriptSig.length + 4 ≤ buf.length :=
      off_advance_le _ _ _ _ _ ho4 hd5 (leBytes_length 4 _)
    have hd6 : buf.drop (off + 32 + 4 + lenB.length + i.scriptSig.length + 4) = rb ++ rest :=
      drop_advance _ _ _ _ _ hd5 (leBytes_length 4 _)
    have s6 : readInputsLoop buf tl.length
        (off + 36 + lenB.length + i.scriptSig.length + 4) =
        Except.ok (tl, off + 36 + lenB.length + i.scriptSig.length + 4 + rb.length) := by
      have := ih rb hrb (fun j hj => htx j (by simp [hj])) buf rest
        (off + 32 + 4 + lenB.length + i.scriptSig.length + 4) (by omega) (by simpa using hd6)
      simpa [Nat.add_assoc] using this
    show readInputsLoop buf (tl.length + 1) off = _
    rw [readInputsLoop]
    simp only [bind, Except.bind, s1, s2, s3, s4, s5, s6, orRange_some]
    have hfinal : off + 36 + lenB.length + i.scriptSig.length + 4 + rb.length =
        off + ((i.txid ++ (leBytes 4 i.vout ++ (lenB ++ (i.scriptSig ++
          leBytes 4 i.sequence)))) ++ rb).length := by
      simp [List.length_append, leBytes_length, htxid]
      omega
    rw [← hfinal]

/-- Running the output-reading loop over a serialized output list recovers
the list and consumes exactly the serialized bytes. -/
theorem readOutputsLoop_ser (l : List TxOut) (blob : List Nat)
    (hser : serOutputs l = some blob) :
    ∀ (buf rest : List Nat) (off : Nat), off ≤ buf.length →
      buf.drop off = blob ++ rest →
      readOutputsLoop buf l.length off = Except.ok (l, off + blob.length) := by
  induction l generalizing blob with
  | nil =>
    intro buf rest off hoff hdrop
    simp only [serOutputs, Option.some.injEq] at hser
    subst hser
    simp [readOutputsLoop]
  | cons o tl ih =>
    intro buf rest off hoff hdrop
    obtain ⟨ob, hob, rb, hrb, rfl⟩ : ∃ ob, serOutput o = some ob ∧
        ∃ rb, serOutputs tl = some rb ∧ blob = ob ++ rb := by
      unfold serOutputs at hser
      simp only [bind, Option.bind_eq_some, Option.some.injEq] at hser
      obtain ⟨ob, hob, rb, hrb, hblob⟩ := hser
      exact ⟨ob, hob, rb, hrb, hblob.symm⟩
    obtain ⟨lenB, hlen, hlo, hhi, hobeq⟩ := serOutput_eq o ob hob
    subst hobeq
    simp only [List.append_assoc] at hdrop
    have hd1 : buf.drop off = leBytes 8 (toUnsigned 64 o.value) ++
        (lenB ++ (o.scriptPubKey ++ (rb ++ rest))) := by
      rw [hdrop]
    have s1 : readBigInt64LE buf off = some o.value :=
      readBigInt64LE_drop _ _ _ _ hoff hd1 hlo hhi
    have ho1 : off + 8 ≤ buf.length := off_advance_le _ _ _ _ _ hoff hd1 (leBytes_length 8 _)
    have hd2 : buf.drop (off + 8) = lenB ++ (o.scriptPubKey ++ (rb ++ rest)) :=
      drop_advance _ _ _ _ _ hd1 (leBytes_length 8 _)
    have s2 : readVarInt buf (off + 8) =
        Except.ok (o.scriptPubKey.length, off + 8 + lenB.length) :=
      readVarInt_write _ _ hlen buf _ (off + 8) ho1 hd2
    have ho2 : off + 8 + lenB.length ≤ buf.length := off_advance_le _ _ _ _ _ ho1 hd2 rfl
    have hd3 : buf.drop (off + 8 + lenB.length) = o.scriptPubKey ++ (rb ++ rest) :=
      drop_advance _ _ _ _ _ hd2 rfl
    have s3 : sliceClamped buf (off + 8 + lenB.length) o.scriptPubKey.length =
        o.scriptPubKey := sliceClamped_drop _ _ _ _ _ hd3 rfl
    have ho3 : off + 8 + lenB.length + o.scriptPubKey.length ≤ buf.length :=
      off_advance_le _ _ _ _ _ ho2 hd3 rfl
    have hd4 : buf.drop (off + 8 + lenB.length + o.scriptPubKey.length) = rb ++ rest :=
      drop_advance _ _ _ _ _ hd3 rfl
    have s4 : readOutputsLoop buf tl.length (off + 8 + lenB.length + o.scriptPubKey.length) =
        Except.ok (tl, off + 8 + lenB.length + o.scriptPubKey.length + rb.length) :=
      ih rb hrb buf rest _ ho3 hd4
    show readOutputsLoop buf (tl.length + 1) off = _
    rw [readOutputsLoop]
    simp only [bind, Except.bind, s1, s2, s3, s4, orRange_some]
    have hfinal : off + 8 + lenB.length + o.scriptPubKey.length + rb.length =
        off + ((leBytes 8 (toUnsigned 64 o.value) ++ (lenB ++ o.scriptPubKey)) ++ rb).length := by
      simp [List.length_append, leBytes_length]
      omega
    rw [← hfinal]

/-- Reading the counted inputs, counted outputs and lock time of a
serialized middle section recovers them and consumes exactly its bytes. -/
theorem readMid (buf : List Nat) (off : Nat) (icB insB ocB outsB tailB : List Nat)
    (inputs : List TxIn) (outputs : List TxOut) (lockTime : Nat)
    (hic : writeVarInt inputs.length = some icB) (hins : serInputs inputs = some insB)
    (hoc : writeVarInt outputs.length = some ocB) (houts : serOutputs outputs = some outsB)
    (htx : ∀ i ∈ inputs, i.txid.length = 32) (hlock : lockTime < 2 ^ 32)
    (hoff : off ≤ buf.length)
    (hdrop : buf.drop off = icB ++ (insB ++ (ocB ++ (outsB ++ (leBytes 4 lockTime ++ tailB))))) :
    readVarInt buf off = Except.ok (inputs.length, off + icB.length) ∧
    readInputsLoop buf inputs.length (off + icB.length) =
      Except.ok (inputs, off + icB.length + insB.length) ∧
    readVarInt buf (off + icB.length + insB.length) =
      Except.ok (outputs.length, off + icB.length + insB.length + ocB.length) ∧
    readOutputsLoop buf outputs.length (off + icB.length + insB.length + ocB.length) =
      Except.ok (outputs, off + icB.length + insB.length + ocB.length + outsB.length) ∧
    readUInt32LE buf (off + icB.length + insB.length + ocB.length + outsB.length) =
      some lockTime ∧
    buf.drop (off + icB.length + insB.length + ocB.length + outsB.length + 4) = tailB ∧
    off + icB.length + insB.length + ocB.length + outsB.length + 4 ≤ buf.length := by
  have s1 : readVarInt buf off = Except.ok (inputs.length, off + icB.length) :=
    readVarInt_write _ _ hic buf _ off hoff hdrop
  have ho1 : off + icB.length ≤ buf.length := off_advance_le _ _ _ _ _ hoff hdrop rfl
  have hd1 : buf.drop (off + icB.length) =
      insB ++ (ocB ++ (outsB ++ (leBytes 4 lockTime ++ tailB))) :=
    drop_advance _ _ _ _ _ hdrop rfl
  have s2 := readInputsLoop_ser inputs insB hins htx buf _ (off + icB.length) ho1 hd1
  have ho2 : off + icB.length + insB.length ≤ buf.length := off_advance_le _ _ _ _ _ ho1 hd1 rfl
  have hd2 : buf.drop (off + icB.length + insB.length) =
      ocB ++ (outsB ++ (leBytes 4 lockTime ++ tailB)) := drop_advance _ _ _ _ _ hd1 rfl
  have s3 : readVarInt buf (off + icB.length + insB.length) =
      Except.ok (outputs.length, off + icB.length + insB.length + ocB.length) :=
    readVarInt_write _ _ hoc buf _ _ ho2 hd2
  have ho3 : off + icB.length + insB.length + ocB.length ≤ buf.length :=
    off_advance_le _ _ _ _ _ ho2 hd2 rfl
  have hd3 : buf.drop (off + icB.length + insB.length + ocB.length) =
      outsB ++ (leBytes 4 lockTime ++ tailB) := drop_advance _ _ _ _ _ hd2 rfl
  have s4 := readOutputsLoop_ser outputs outsB houts buf _ _ ho3 hd3
  have ho4 : off + icB.length + insB.length + ocB.length + outsB.length ≤ buf.length :=
    off_advance_le _ _ _ _ _ ho3 hd3 rfl
  have hd4 : buf.drop (off + icB.length + insB.length + ocB.length + outsB.length) =
      leBytes 4 lockTime ++ tailB := drop_advance _ _ _ _ _ hd3 rfl
  have s5 : readUInt32LE buf (off + icB.length + insB.length + ocB.length + outsB.length) =
      some lockTime := readUInt32LE_drop _ _ _ _ ho4 hd4 hlock
  have ho5 : off + icB.length + insB.length + ocB.length + outsB.length + 4 ≤ buf.length :=
    off_advance_le _ _ _ _ _ ho4 hd4 (leBytes_length 4 _)
  have hd5 : buf.drop (off + icB.length + insB.length + ocB.length + outsB.length + 4) =
      tailB := drop_advance _ _ _ _ _ hd4 (leBytes_length 4 _)
  exact ⟨s1, s2, s3, s4, s5, hd5, ho5⟩

/-- Parsing a successful serialization of a structurally well-formed
transaction recovers the transaction exactly. -/
theorem parse_rebuild (t : Transaction) (x : List Nat) (hok : txStructOk t)
    (h : rebuildTransaction t = some x) : parseTransaction x = Except.ok t := by
  obtain ⟨hvg0, hex0, hvb0, htx32⟩ := hok
  unfold rebuildTransaction at h
  simp only [bind, Option.bind_eq_some] at h
  obtain ⟨versionB, hv, vgB, hvg, icB, hic, insB, hins, ocB, hoc, outsB, houts,
    lockB, hlock, exB, hex, saplingB, hsap, hx⟩ := h
  obtain ⟨rfl, hvlo, hvhi⟩ := writeInt32LEOpt_eq _ _ hv
  obtain ⟨rfl, hlock32⟩ := writeUInt32LEOpt_eq _ _ hlock
  simp only [Option.some.injEq] at hx
  subst hx
  simp only [List.append_assoc]
  set buf := leBytes 4 (toUnsigned 32 t.version) ++ (vgB ++ (icB ++ (insB ++ (ocB ++
    (outsB ++ (leBytes 4 t.lockTime ++ (exB ++ saplingB))))))) with hbuf
  have hd0 : buf.drop 0 = leBytes 4 (toUnsigned 32 t.version) ++ (vgB ++ (icB ++ (insB ++
      (ocB ++ (outsB ++ (leBytes 4 t.lockTime ++ (exB ++ saplingB))))))) := List.drop_zero buf
  have s0 : readInt32LE buf 0 = some t.version :=
    readInt32LE_drop _ _ 0 _ (by omega) hd0 hvlo hvhi
  have ho0 : 0 + 4 ≤ buf.length := off_advance_le _ _ _ 0 4 (by omega) hd0 (leBytes_length 4 _)
  have hd4 : buf.drop (0 + 4) = vgB ++ (icB ++ (insB ++ (ocB ++
      (outsB ++ (leBytes 4 t.lockTime ++ (exB ++ saplingB)))))) :=
    drop_advance _ _ _ 0 4 hd0 (leBytes_length 4 _)
  rw [Nat.zero_add] at ho0 hd4
  cases hbit : overwinterBit t.version
  · have hvgB : vgB = [] := by
      unfold vgSeg at hvg
      rw [hbit] at hvg
      simp at hvg
      exact hvg
    have hg0 : t.versionGroupId = 0 := hvg0 hbit
    have hsapF : saplingPresent t.version t.versionGroupId = false := by
      simp [saplingPresent, hbit]
    have hsap0 : saplingPresent t.version 0 = false := by
      simp [saplingPresent, hbit]
    have hsapB : saplingB = [] := by
      unfold saplingSeg at hsap
      rw [hsapF] at hsap
      simp at hsap
      exact hsap
    have hvbZ : t.valueBalance = 0 := hvb0 hsapF
    subst hvgB hsapB
    simp only [List.nil_append, List.append_nil] at hd4
    cases hexp : expiryPresent t.version
    · have hexB : exB = [] := by
        unfold expirySeg at hex
        rw [hexp] at hex
        simp at hex
        exact hex
      have hexH : t.expiryHeight = 0 := hex0 hexp
      subst hexB
      simp only [List.nil_append, List.append_nil] at hd4
      obtain ⟨m1, m2, m3, m4, m5, m6, m7⟩ := readMid buf 4 icB insB ocB outsB []
        t.inputs t.outputs t.lockTime hic hins hoc houts htx32 hlock32 (by omega) hd4
      rw [parseTransaction]
      simp only [bind, Except.bind, s0, orRange_some, hbit, Bool.false_eq_true, if_false,
        m1, m2, m3, m4, m5, hexp, hsap0]
      clear_value buf
      obtain ⟨ver, vgid, ins, outs, lock, exh, vb⟩ := t
      dsimp only at hg0 hexH hvbZ ⊢
      rw [hg0, hexH, hvbZ]
    · obtain ⟨hexB, hex32⟩ : (∃ e, expirySeg t = some e) ∧ t.expiryHeight < 2 ^ 32 := by
        unfold expirySeg at hex ⊢
        rw [hexp] at hex ⊢
        simp only [if_true] at hex ⊢
        exact ⟨⟨exB, hex⟩, (writeUInt32LEOpt_eq _ _ hex).2⟩
      have hexBeq : exB = leBytes 4 t.expiryHeight := by
        unfold expirySeg at hex
        rw [hexp] at hex
        simp only [if_true] at hex
        exact (writeUInt32LEOpt_eq _ _ hex).1
      subst hexBeq
      obtain ⟨m1, m2, m3, m4, m5, m6, m7⟩ := readMid buf 4 icB insB ocB outsB
        (leBytes 4 t.expiryHeight) t.inputs t.outputs t.lockTime hic hins hoc houts
        htx32 hlock32 (by omega) hd4
      have sE : readUInt32LE buf (4 + icB.length + insB.length + ocB.length + outsB.length + 4) =
          some t.expiryHeight :=
        readUInt32LE_drop buf [] _ _ m7 (by rw [m6, List.append_nil]) hex32
      rw [parseTransaction]
      simp only [bind, Except.bind, s0, orRange_some, hbit, Bool.false_eq_true, if_false,
        m1, m2, m3, m4, m5, hexp, if_true, sE, hsap0]
      clear_value buf
      obtain ⟨ver, vgid, ins, outs, lock, exh, vb⟩ := t
      dsimp only at hg0 hvbZ ⊢
      rw [hg0, hvbZ]
  · have hexpT : expiryPresent t.version = true := by
      simp [expiryPresent, hbit]
    obtain ⟨hvgBeq, hg32⟩ : vgB = leBytes 4 t.versionGroupId ∧ t.versionGroupId < 2 ^ 32 := by
      unfold vgSeg at hvg
      rw [hbit] at hvg
      simp only [if_true] at hvg
      exact writeUInt32LEOpt_eq _ _ hvg
    obtain ⟨hexBeq, hex32⟩ : exB = leBytes 4 t.expiryHeight ∧ t.expiryHeight < 2 ^ 32 := by
      unfold expirySeg at hex
      rw [hexpT] at hex
      simp only [if_true] at hex
      exact writeUInt32LEOpt_eq _ _ hex
    subst hvgBeq hexBeq
    have sVG : readUInt32LE buf 4 = some t.versionGroupId :=
      readUInt32LE_drop _ _ _ _ ho0 hd4 hg32
    have ho8 : 4 + 4 ≤ buf.length := off_advance_le _ _ _ 4 4 ho0 hd4 (leBytes_length 4 _)
    have hd8 : buf.drop (4 + 4) = icB ++ (insB ++ (ocB ++ (outsB ++ (leBytes 4 t.lockTime ++
        (leBytes 4 t.expiryHeight ++ saplingB))))) := drop_advance _ _ _ 4 4 hd4 (leBytes_length 4 _)
    rw [show (4 + 4 : Nat) = 8 from rfl] at ho8 hd8
    obtain ⟨m1, m2, m3, m4, m5, m6, m7⟩ := readMid buf 8 icB insB ocB outsB
      (leBytes 4 t.expiryHeight ++ saplingB) t.inputs t.outputs t.lockTime hic hins hoc houts
      htx32 hlock32 (by omega) hd8
    have sE : readUInt32LE buf (8 + icB.length + insB.length + ocB.length + outsB.length + 4) =
        some t.expiryHeight := readUInt32LE_drop buf saplingB _ _ m7 (by rw [m6]) hex32
    have hoE : 8 + icB.length + insB.length + ocB.length + outsB.length + 4 + 4 ≤ buf.length :=
      off_advance_le buf (leBytes 4 t.expiryHeight) saplingB _ 4 m7 (by rw [m6]) (leBytes_length 4 _)
    have hdE : buf.drop (8 + icB.length + insB.length + ocB.length + outsB.length + 4 + 4) =
        saplingB :=
      drop_advance buf (leBytes 4 t.expiryHeight) saplingB _ 4 (by rw [m6]) (leBytes_length 4 _)
    rw [show 8 + icB.length + insB.length + ocB.length + outsB.length + 4 + 4 =
      8 + icB.length + insB.length + ocB.length + outsB.length + 8 by omega] at hoE hdE
    cases hsapb : saplingPresent t.version t.versionGroupId
    · have hsapB : saplingB = [] := by
        unfold saplingSeg at hsap
        rw [hsapb] at hsap
        simp at hsap
        exact hsap
      have hvbZ : t.valueBalance = 0 := hvb0 hsapb
      rw [parseTransaction]
      simp only [bind, Except.bind, s0, orRange_some, hbit, if_true, sVG,
        m1, m2, m3, m4, m5, hexpT, sE, hsapb, Bool.false_eq_true, if_false]
      clear_value buf
      obtain ⟨ver, vgid, ins, outs, lock, exh, vb⟩ := t
      dsimp only at hvbZ ⊢
      rw [hvbZ]
    · obtain ⟨hsapBeq, hvblo, hvbhi⟩ : saplingB = leBytes 8 (toUnsigned 64 t.valueBalance) ++
          [0, 0, 0] ∧ -(2 ^ 63) ≤ t.valueBalance ∧ t.valueBalance < 2 ^ 63 := by
        unfold saplingSeg at hsap
        rw [hsapb] at hsap
        simp only [if_true, bind, Option.bind_eq_some, Option.some.injEq] at hsap
        obtain ⟨vbB, hvbB, z, hz, hs⟩ := hsap
        obtain ⟨rfl, hlo, hhi⟩ := writeBigInt64LEOpt_eq _ _ hvbB
        unfold writeVarInt at hz
        simp at hz
        subst hz
        refine ⟨?_, hlo, hhi⟩
        rw [← hs]
        simp
      subst hsapBeq
      have sVB : readBigInt64LE buf
          (8 + icB.length + insB.length + ocB.length + outsB.length + 8) =
          some t.valueBalance :=
        readBigInt64LE_drop buf [0, 0, 0] _ _ hoE hdE hvblo hvbhi
      rw [parseTransaction]
      simp only [bind, Except.bind, s0, orRange_some, hbit, if_true, sVG,
        m1, m2, m3, m4, m5, hexpT, sE, hsapb, sVB]

/-- C3: serializing the result of parsing reproduces the input byte-for-byte
on every syntactically valid transaction byte string, validity being
membership in the serializer's image over structurally well-formed
transactions — this covers all four field-presence combinations (legacy,
overwinter without the Sapling group, overwinter with the Sapling group,
and pre-v3). -/
theorem c3_roundtrip (t : Transaction) (x : List Nat) (hok : txStructOk t)
    (h : rebuildTransaction t = some x) : reserialize x = some x := by
  unfold reserialize
  rw [parse_rebuild t x hok h]
  exact h

/-- Concrete overwinter transaction with the Sapling version group, one
input and one output, exercising the round trip including the three
trailing empty shielded counts. -/
def txC3 : Transaction :=
  ⟨(0x80000004 : Int) - 2 ^ 32, 0x892f2085,
    [⟨List.replicate 32 2, 1, [0xab, 0xcd], 0xfffffffe⟩],
    [⟨5000, [0x76, 0xa9]⟩], 17, 99, 0⟩

/-- C3 witness: the round trip holds at a concrete Sapling-group
transaction. -/
theorem c3_roundtrip_witness :
    reserialize ((rebuildTransaction txC3).getD []) =
      some ((rebuildTransaction txC3).getD []) :=
  c3_roundtrip txC3 ((rebuildTransaction txC3).getD []) (by decide) (by rfl)

/-- A clamped slice has full length when it fits in the buffer. -/
theorem sliceClamped_length (buf : List Nat) (off n : Nat) (h : off + n ≤ buf.length) :
    (sliceClamped buf off n).length = n := by
  unfold sliceClamped
  rw [List.length_take, List.length_drop]
  omega

/-- Inversion of a successful lifted read. -/
theorem orRange_eq_ok {α : Type} (o : Option α) (a : α) (h : orRange o = Except.ok a) :
    o = some a := by
  cases o
  · simp [orRange] at h
  · simp [orRange] at h
    simp [h]

/-- A successful 4-byte read is in bounds. -/
theorem readUInt32LE_bound (buf : List Nat) (off v : Nat)
    (h : readUInt32LE buf off = some v) : off + 4 ≤ buf.length := by
  unfold readUInt32LE readBytes at h
  split at h <;> simp_all

/-- Every input produced by a successful run of the input loop has a full
32-byte txid: its trailing fixed-width reads force the slice to be
unclamped. -/
theorem readInputsLoop_txid (buf : List Nat) (n : Nat) :
    ∀ (off : Nat) (l : List TxIn) (off2 : Nat),
      readInputsLoop buf n off = Except.ok (l, off2) →
      ∀ i ∈ l, i.txid.length = 32 := by
  induction n with
  | zero =>
    intro off l off2 h
    simp [readInputsLoop] at h
    obtain ⟨h1, h2⟩ := h
    subst h1
    simp
  | succ n ih =>
    intro off l off2 h
    rw [readInputsLoop] at h
    simp only [bind, Except.bind] at h
    repeat' split at h
    all_goals try contradiction
    rename_i x1 vout hvout x2 sl hsl x3 seq hseq x4 rest hrest
    simp only [Except.ok.injEq, Prod.mk.injEq] at h
    obtain ⟨h1, h2⟩ := h
    subst h1
    intro i hi
    rcases List.mem_cons.mp hi with rfl | hi2
    · have hb := readUInt32LE_bound buf (off + 32) vout (orRange_eq_ok _ _ hvout)
      exact sliceClamped_length buf off 32 (by omega)
    · exact ih _ _ _ hrest i hi2

/-- Every successfully parsed transaction is structurally well-formed: the
conditionally-present fields default to zero when absent and every txid is
32 bytes. -/
theorem parse_structOk (raw : List Nat) (t : Transaction)
    (h : parseTransaction raw = Except.ok t) : txStructOk t := by
  unfold parseTransaction at h
  simp only [bind, Except.bind] at h
  repeat' split at h
  all_goals try contradiction
  all_goals (simp only [Except.ok.injEq] at h; subst h; unfold txStructOk)
  all_goals refine ⟨?_, ?_, ?_, ?_⟩
  all_goals (intro hc; try simp_all)
  all_goals exact fun hmem => readInputsLoop_txid raw _ _ _ _ (by assumption) hc hmem

/-- C9: when `signInput` succeeds on a parseable transaction, the returned
bytes parse to a transaction that differs from the original only in input
`i`'s unlocking script: version, version group id, outputs, lock time,
expiry height, value balance, every other input, and input `i`'s txid,
output index and sequence are all unchanged. -/
theorem c9_signinput_frame (blakePrim : List Nat → List Nat → Option (List Nat))
    (shaPrim : List Nat → List Nat) (sign : List Nat → Option (List Nat))
    (publicKey txBytes : List Nat) (i : Nat) (psk : List Nat) (amount : Int)
    (t : Transaction) (out : List Nat)
    (hparse : parseTransaction txBytes = Except.ok t)
    (hsign : signInput blakePrim shaPrim sign publicKey txBytes i psk amount = some out) :
    ∃ t2, parseTransaction out = Except.ok t2 ∧
      t2.version = t.version ∧ t2.versionGroupId = t.versionGroupId ∧
      t2.outputs = t.outputs ∧ t2.lockTime = t.lockTime ∧
      t2.expiryHeight = t.expiryHeight ∧ t2.valueBalance = t.valueBalance ∧
      t2.inputs.length = t.inputs.length ∧ i < t.inputs.length ∧
      (∀ j, j ≠ i →
        t2.inputs.getD j defaultTxIn = t.inputs.getD j defaultTxIn) ∧
      (t2.inputs.getD i defaultTxIn).txid = (t.inputs.getD i defaultTxIn).txid ∧
      (t2.inputs.getD i defaultTxIn).vout = (t.inputs.getD i defaultTxIn).vout ∧
      (t2.inputs.getD i defaultTxIn).sequence = (t.inputs.getD i defaultTxIn).sequence := by
  unfold signInput at hsign
  rw [hparse] at hsign
  simp only [Except.toOption, bind, Option.bind_eq_some] at hsign
  obtain ⟨tx, htx, sighash, hsh, signature, hsig, hsign2⟩ := hsign
  simp only [Option.some.injEq] at htx
  subst htx
  obtain ⟨inp, hinp, hreb⟩ := hsign2
  rw [List.get?_eq_getElem?] at hinp
  obtain ⟨hilt, hival⟩ := List.getElem?_eq_some_iff.mp hinp
  obtain ⟨hvg0, hex0, hvb0, htx32⟩ := parse_structOk txBytes t hparse
  have hinpMem : inp ∈ t.inputs := by
    rw [← hival]
    exact List.getElem_mem hilt
  refine ⟨_, parse_rebuild _ out ?hok hreb, rfl, rfl, rfl, rfl, rfl, rfl,
    List.length_set .., hilt, ?_, ?_, ?_, ?_⟩
  case hok =>
    refine ⟨hvg0, hex0, hvb0, ?_⟩
    intro j hj
    rcases List.mem_or_eq_of_mem_set hj with hj2 | rfl
    · exact htx32 j hj2
    · exact htx32 inp hinpMem
  · intro j hj
    dsimp only
    rw [List.getD_eq_getElem?_getD, List.getD_eq_getElem?_getD,
      List.getElem?_set_ne (Ne.symm hj)]
  all_goals
    dsimp only
    rw [List.getD_eq_getElem?_getD, List.getD_eq_getElem?_getD, hinp,
      List.getElem?_set_self hilt]
    rfl

/-- Concrete unsigned legacy transaction bytes: version 1, one input
(all-zero txid, empty script), no outputs. -/
def txBytesC9 : List Nat :=
  [1, 0, 0, 0] ++ [1] ++ List.replicate 32 0 ++ [0, 0, 0, 0] ++ [0] ++
    [255, 255, 255, 255] ++ [0] ++ [0, 0, 0, 0]

/-- Parse of `txBytesC9`. -/
def txC9 : Transaction :=
  ⟨1, 0, [⟨List.replicate 32 0, 0, [], 0xffffffff⟩], [], 0, 0, 0⟩

/-- Signing result on `txBytesC9` under concrete stand-in primitives. -/
def outC9 : List Nat :=
  (signInput (fun _ _ => some []) (fun _ => []) (fun _ => some (List.replicate 64 1))
    [2, 3] txBytesC9 0 [] 0).getD []

/-- C9 witness: the frame property instantiated at a concrete transaction
and concrete signing primitives. -/
theorem c9_signinput_frame_witness :
    ∃ t2, parseTransaction outC9 = Except.ok t2 ∧
      t2.version = txC9.version ∧ t2.versionGroupId = txC9.versionGroupId ∧
      t2.outputs = txC9.outputs ∧ t2.lockTime = txC9.lockTime ∧
      t2.expiryHeight = txC9.expiryHeight ∧ t2.valueBalance = txC9.valueBalance ∧
      t2.inputs.length = txC9.inputs.length ∧ 0 < txC9.inputs.length ∧
      (∀ j, j ≠ 0 →
        t2.inputs.getD j defaultTxIn = txC9.inputs.getD j defaultTxIn) ∧
      (t2.inputs.getD 0 defaultTxIn).txid = (txC9.inputs.getD 0 defaultTxIn).txid ∧
      (t2.inputs.getD 0 defaultTxIn).vout = (txC9.inputs.getD 0 defaultTxIn).vout ∧
      (t2.inputs.getD 0 defaultTxIn).sequence = (txC9.inputs.getD 0 defaultTxIn).sequence :=
  c9_signinput_frame (fun _ _ => some []) (fun _ => []) (fun _ => some (List.replicate 64 1))
    [2, 3] txBytesC9 0 [] 0 txC9 outC9 (by rfl) (by rfl)

/-- Bounds-checked counterpart of `readInputsLoop`, following the spec's
words: a length prefix (or fixed-width field) that would read past the
buffer end makes the parse fail instead of clamping the slice.  Used only
to compare against the source parser. -/
def readInputsLoopStrict (buf : List Nat) : Nat → Nat → Except ParseFailure (List TxIn × Nat)
  | 0, off => Except.ok ([], off)
  | n + 1, off => do
    let txid ← orRange (readBytes buf off 32)
    let vout ← orRange (readUInt32LE buf (off + 32))
    let sl ← readVarInt buf (off + 36)
    let scriptSig ← orRange (readBytes buf sl.2 sl.1)
    let sequence ← orRange (readUInt32LE buf (sl.2 + sl.1))
    let rest ← readInputsLoopStrict buf n (sl.2 + sl.1 + 4)
    Except.ok (⟨txid, vout, scriptSig, sequence⟩ :: rest.1, rest.2)

/-- Bounds-checked counterpart of `readOutputsLoop` (see
`readInputsLoopStrict`). -/
def readOutputsLoopStrict (buf : List Nat) : Nat → Nat → Except ParseFailure (List TxOut × Nat)
  | 0, off => Except.ok ([], off)
  | n + 1, off => do
    let value ← orRange (readBigInt64LE buf off)
    let sl ← readVarInt buf (off + 8)
    let scriptPubKey ← orRange (readBytes buf sl.2 sl.1)
    let rest ← readOutputsLoopStrict buf n (sl.2 + sl.1)
    Except.ok (⟨value, scriptPubKey⟩ :: rest.1, rest.2)

/-- Modelled from the spec: a parser identical to `parseTransaction` except
that every variable-length slice is bounds-checked, so a declared length
that extends past the buffer end fails instead of being silently clamped. -/
def parseTransactionStrict (raw : List Nat) : Except ParseFailure Transaction := do
  let version ← orRange (readInt32LE raw 0)
  let vg ← if overwinterBit version then do
      let g ← orRange (readUInt32LE raw 4)
      Except.ok (g, 8)
    else Except.ok (0, 4)
  let ic ← readVarInt raw vg.2
  let ins ← readInputsLoopStrict raw ic.1 ic.2
  let oc ← readVarInt raw ins.2
  let outs ← readOutputsLoopStrict raw oc.1 oc.2
  let lockTime ← orRange (readUInt32LE raw outs.2)
  let ex ← if expiryPresent version then do
      let e ← orRange (readUInt32LE raw (outs.2 + 4))
      Except.ok (e, outs.2 + 8)
    else Except.ok (0, outs.2 + 4)
  let vb ← if saplingPresent version vg.1 then do
      let b ← orRange (readBigInt64LE raw ex.2)
      Except.ok b
    else Except.ok 0
  Except.ok ⟨version, vg.1, ins.1, outs.1, lockTime, ex.1, vb⟩

/-- A 4-byte read past the end of the buffer fails. -/
theorem readUInt32LE_oob (buf : List Nat) (off : Nat) (h : buf.length < off + 4) :
    readUInt32LE buf off = none := by
  unfold readUInt32LE readBytes
  rw [if_neg (by omega)]
  rfl

/-- An 8-byte read past the end of the buffer fails. -/
theorem readBigInt64LE_oob (buf : List Nat) (off : Nat) (h : buf.length < off + 8) :
    readBigInt64LE buf off = none := by
  unfold readBigInt64LE readBytes
  rw [if_neg (by omega)]
  rfl

/-- The clamping input loop agrees with the bounds-checked one everywhere:
whenever a slice would clamp, the trailing fixed-width read of the same
iteration fails anyway. -/
theorem readInputsLoop_strict_eq (buf : List Nat) (n : Nat) :
    ∀ off, readInputsLoop buf n off = readInputsLoopStrict buf n off := by
  induction n with
  | zero => intro off; rfl
  | succ n ih =>
    intro off
    rw [readInputsLoop, readInputsLoopStrict]
    simp only [bind, Except.bind]
    by_cases h32 : off + 32 ≤ buf.length
    · rw [readBytes, if_pos h32, orRange_some]
      cases hv : orRange (readUInt32LE buf (off + 32)) with
      | error e => rfl
      | ok vout =>
        dsimp only
        cases hsl : readVarInt buf (off + 36) with
        | error e => rfl
        | ok sl =>
          dsimp only
          by_cases hsc : sl.2 + sl.1 ≤ buf.length
          · rw [readBytes, if_pos hsc, orRange_some]
            rw [ih (sl.2 + sl.1 + 4)]
            rfl
          · rw [readBytes, if_neg hsc]
            rw [readUInt32LE_oob buf (sl.2 + sl.1) (by omega)]
            rfl
    · rw [readBytes, if_neg h32]
      rw [readUInt32LE_oob buf (off + 32) (by omega)]
      rfl

/-- The clamping output loop at an offset already past the buffer end:
zero remaining iterations succeed vacuously, otherwise the first
fixed-width read fails. -/
theorem readOutputsLoop_oob (buf : List Nat) (n off : Nat) (h : buf.length < off) :
    readOutputsLoop buf n off = if n = 0 then Except.ok ([], off)
      else Except.error ParseFailure.rangeError := by
  cases n with
  | zero => rfl
  | succ n =>
    rw [readOutputsLoop]
    simp only [bind, Except.bind]
    rw [readBigInt64LE_oob buf off (by omega), if_neg (Nat.succ_ne_zero n)]
    rfl

/-- The clamping output loop either agrees with the bounds-checked one, or
returns a result whose final offset is past the buffer end (its last
output's script was clamped) while the bounds-checked one fails. -/
theorem readOutputsLoop_strict (buf : List Nat) (n : Nat) :
    ∀ off, readOutputsLoopStrict buf n off = readOutputsLoop buf n off ∨
      (∃ l off2, readOutputsLoop buf n off = Except.ok (l, off2) ∧ buf.length < off2 ∧
        readOutputsLoopStrict buf n off = Except.error ParseFailure.rangeError) := by
  induction n with
  | zero => intro off; left; rfl
  | succ n ih =>
    intro off
    rw [readOutputsLoop, readOutputsLoopStrict]
    simp only [bind, Except.bind]
    cases hv : orRange (readBigInt64LE buf off) with
    | error e => left; rfl
    | ok value =>
      dsimp only
      cases hsl : readVarInt buf (off + 8) with
      | error e => left; rfl
      | ok sl =>
        dsimp only
        by_cases hsc : sl.2 + sl.1 ≤ buf.length
        · rw [readBytes, if_pos hsc, orRange_some]
          dsimp only
          rcases ih (sl.2 + sl.1) with heq | ⟨l, off2, hok, hlt, herr⟩
          · rw [heq]
            left
            rfl
          · rw [hok, herr]
            right
            exact ⟨⟨value, sliceClamped buf sl.2 sl.1⟩ :: l, off2, rfl, hlt, rfl⟩
        · rw [readBytes, if_neg hsc]
          rw [readOutputsLoop_oob buf n (sl.2 + sl.1) (by omega)]
          by_cases hn : n = 0
          · rw [if_pos hn]
            right
            exact ⟨[⟨value, sliceClamped buf sl.2 sl.1⟩], sl.2 + sl.1, rfl, by omega, rfl⟩
          · rw [if_neg hn]
            left
            rfl

/-- The source parser is extensionally equal to the bounds-checked parser:
its clamping slices never change the outcome, because whenever a slice
clamps, a later mandatory read of the same parse fails. -/
theorem parse_strict_eq (raw : List Nat) :
    parseTransaction raw = parseTransactionStrict raw := by
  unfold parseTransaction parseTransactionStrict
  simp only [bind, Except.bind, readInputsLoop_strict_eq]
  cases hv : orRange (readInt32LE raw 0) with
  | error e => rfl
  | ok version =>
    dsimp only
    by_cases hbit : overwinterBit version = true
    · rw [if_pos hbit, if_pos hbit]
      cases hg : orRange (readUInt32LE raw 4) with
      | error e => rfl
      | ok g =>
        dsimp only
        cases hic : readVarInt raw 8 with
        | error e => rfl
        | ok ic =>
          dsimp only
          cases hins : readInputsLoopStrict raw ic.1 ic.2 with
          | error e => rfl
          | ok ins =>
            dsimp only
            cases hoc : readVarInt raw ins.2 with
            | error e => rfl
            | ok oc =>
              dsimp only
              rcases readOutputsLoop_strict raw oc.1 oc.2 with heq | ⟨l, off2, hok, hlt, herr⟩
              · rw [heq]
              · rw [hok, herr]
                dsimp only
                rw [readUInt32LE_oob raw off2 (by omega)]
                rfl
    · rw [if_neg hbit, if_neg hbit]
      cases hic : readVarInt raw 4 with
      | error e => rfl
      | ok ic =>
        dsimp only
        cases hins : readInputsLoopStrict raw ic.1 ic.2 with
        | error e => rfl
        | ok ins =>
          dsimp only
          cases hoc : readVarInt raw ins.2 with
          | error e => rfl
          | ok oc =>
            dsimp only
            rcases readOutputsLoop_strict raw oc.1 oc.2 with heq | ⟨l, off2, hok, hlt, herr⟩
            · rw [heq]
            · rw [hok, herr]
              dsimp only
              rw [readUInt32LE_oob raw off2 (by omega)]
              rfl

/-- C5 counterexample: on a buffer whose declared script length (5) extends
past the buffer end, `parseTransaction` throws the buffer's `RangeError` —
there is no `MalformedTransaction` error anywhere in the code. -/
theorem c5_counterexample :
    parseTransaction ([1, 0, 0, 0] ++ [1] ++ List.replicate 32 0 ++ [0, 0, 0, 0] ++ [5]) =
      Except.error ParseFailure.rangeError ∧
    ParseFailure.rangeError ≠ ParseFailure.malformedTransaction := by
  exact ⟨by rfl, by decide⟩

/-- C5 amended: for every input, `parseTransaction` computes exactly what a
parser with bounds-checked slices computes — so any length prefix or
fixed-width field that would read beyond the buffer end makes the parse
fail (with the runtime range error), and no silently-truncated transaction
is ever returned. -/
theorem c5_parse_never_truncates (raw : List Nat) :
    parseTransaction raw = parseTransactionStrict raw :=
  parse_strict_eq raw
